import Mathlib

/-!
Verification development for the tezedge shell state machine
(`shell_automaton`): a shallow embedding of the mempool reducer and
effects, the bootstrap reducer, the prechecker, and the peer-message
reader, together with theorems about the documented behaviour.

Conventions of the embedding:
* machine integers: Tezos `Level` is `i32` in the source, embedded as `Int`
  (levels stay far from the overflow bounds in all statements here);
* hashes (`OperationHash`, `BlockHash`, public key hashes, socket
  addresses, rpc ids) are opaque 32-byte values / identifiers in the
  source and are embedded as `Nat` identifiers;
* `HashMap`s are embedded as association lists (`KMap`) with
  insert-replaces-key semantics, `HashSet`s as duplicate-free-by-insert
  lists (`NSet`);
* cryptographic functions (blake2b, the seeded-step PRNG) live outside
  this repository; they are passed as explicit function parameters so
  that every theorem quantifies over them.
-/

/-! ## Association maps and sets (embedding of `HashMap` / `HashSet`) -/

/-- Association-list map keyed by `Nat`, embedding `HashMap<K, V>`
(keys are opaque hashes / addresses in the source). -/
abbrev KMap (V : Type) : Type := List (Nat × V)

namespace KMap

variable {V : Type}

/-- The empty map. -/
def empty : KMap V := []

/-- `HashMap::get`. -/
def find? : KMap V → Nat → Option V
  | [], _ => none
  | e :: rest, k => if e.1 = k then some e.2 else find? rest k

/-- Remove a key (`HashMap::remove`; the removed value is recovered
with `find?` first, as the reducer does with `remove`'s return value). -/
def erase : KMap V → Nat → KMap V
  | [], _ => []
  | e :: rest, k => if e.1 = k then erase rest k else e :: erase rest k

/-- `HashMap::insert` (replaces any previous binding). -/
def insert (m : KMap V) (k : Nat) (v : V) : KMap V :=
  (k, v) :: m.erase k

/-- `HashMap::contains_key`. -/
def contains (m : KMap V) (k : Nat) : Bool :=
  (m.find? k).isSome

theorem find?_erase_self (m : KMap V) (k : Nat) : (m.erase k).find? k = none := by
  induction m with
  | nil => rfl
  | cons e rest ih =>
    by_cases h : e.1 = k <;> simp [KMap.erase, KMap.find?, h, ih]

theorem find?_erase_ne (m : KMap V) {k k' : Nat} (h : k ≠ k') :
    (m.erase k).find? k' = m.find? k' := by
  induction m with
  | nil => rfl
  | cons e rest ih =>
    by_cases he : e.1 = k
    · have : ¬ (e.1 = k') := by omega
      simp [KMap.erase, KMap.find?, he, this, h, ih]
    · by_cases he' : e.1 = k' <;>
        simp [KMap.erase, KMap.find?, he, he', Ne.symm h, ih]

theorem find?_insert_self (m : KMap V) (k : Nat) (v : V) :
    (m.insert k v).find? k = some v := by
  simp [KMap.insert, KMap.find?]

theorem find?_insert_ne (m : KMap V) {k k' : Nat} (v : V) (h : k ≠ k') :
    (m.insert k v).find? k' = m.find? k' := by
  have hne : ¬ (k = k') := h
  simp [KMap.insert, KMap.find?, hne, find?_erase_ne m h]

end KMap

/-- List-based finite set of `Nat` (embedding of `HashSet<Hash>`).
An element is inserted only when absent, so sets built by `insert`
stay duplicate-free. -/
abbrev NSet : Type := List Nat

namespace NSet

/-- The empty set. -/
def empty : NSet := []

/-- `HashSet::insert`. -/
def insert (s : NSet) (x : Nat) : NSet :=
  if x ∈ s then s else x :: s

/-- `HashSet::remove`. -/
def erase (s : NSet) (x : Nat) : NSet :=
  List.filter (fun y => !(y == x)) s

/-- `HashSet::contains`. -/
def contains (s : NSet) (x : Nat) : Bool := decide (x ∈ s)

/-- `Extend::extend` with an iterator of hashes. -/
def extend (s : NSet) (l : List Nat) : NSet :=
  l.foldl NSet.insert s

theorem mem_insert_iff {s : NSet} {x y : Nat} :
    y ∈ s.insert x ↔ y = x ∨ y ∈ s := by
  by_cases h : x ∈ s
  · simp only [NSet.insert, if_pos h]
    constructor
    · exact Or.inr
    · rintro (rfl | hy)
      · exact h
      · exact hy
  · simp only [NSet.insert, if_neg h]
    exact List.mem_cons

theorem mem_extend_iff {l : List Nat} {s : NSet} {y : Nat} :
    y ∈ s.extend l ↔ y ∈ l ∨ y ∈ s := by
  induction l generalizing s with
  | nil => simp [NSet.extend]
  | cons a rest ih =>
    show y ∈ NSet.extend (s.insert a) rest ↔ _
    rw [show NSet.extend (s.insert a) rest = (s.insert a).extend rest from rfl, ih]
    simp only [List.mem_cons, mem_insert_iff]
    tauto

theorem subset_extend (s : NSet) (l : List Nat) {y : Nat} (h : y ∈ s) :
    y ∈ s.extend l := mem_extend_iff.mpr (Or.inr h)

theorem mem_erase_iff {s : NSet} {x y : Nat} :
    y ∈ s.erase x ↔ y ∈ s ∧ y ≠ x := by
  simp [NSet.erase, List.mem_filter]

end NSet

/-! ## Mempool data model (`shell_automaton/src/mempool/mempool_state.rs`,
with the fields as used by `mempool_reducer.rs`) -/

/-- Operation hashes, block hashes, socket addresses, rpc ids. -/
abbrev OpHash := Nat
abbrev BlockHashId := Nat
abbrev Address := Nat
abbrev RpcId := Nat

/-- An operation's payload; only its identity matters to the reducer, the
bytes themselves are opaque. -/
abbrev Operation := Nat

/-- `BlockHeader` as consumed by the mempool: level, timestamp and an
opaque body identifier used by the (external) hashing function. -/
structure Header where
  level : Int
  timestamp : Int
  body : Nat
deriving Repr, DecidableEq

/-- `HeadState` carried by mempool actions: chain id, current block
header, and its hash (`HeadState::new` computes `block_hash` from the
header via `message_typed_hash`). -/
structure HeadState where
  chain_id : Nat
  current_block : Header
  block_hash : BlockHashId
deriving Repr, DecidableEq

/-- `HeadState::new(chain_id, block)`; hashing is performed by the
external crypto library, passed in as `blockHash` (`none` embeds the
`Err` return of `message_typed_hash`). -/
def HeadState.make (blockHash : Header → Option BlockHashId) (chain_id : Nat)
    (block : Header) : Option HeadState :=
  (blockHash block).map fun h =>
    { chain_id := chain_id, current_block := block, block_hash := h }

/-- `MempoolCurrentHead`: a head block seen on the network, with the set
of peers that announced it (the receipt timestamp is bookkeeping only
and is not modelled). -/
structure MempoolCurrentHead where
  level : Int
  peers : NSet
deriving Repr, DecidableEq

/-- Per-operation audit states (`OperationState` of the reducer). -/
inductive OperationState where
  | received
  | decoded
  | prechecked
  | applied
  | precheckRefused
  | refused
  | branchRefused
  | branchDelayed
deriving Repr, DecidableEq

/-- `MempoolOperation` audit record (the `times` map only records wall
clock durations and is not modelled). -/
structure MempoolOperation where
  branch : BlockHashId
  state : OperationState
  broadcast : Bool
  protocol_data : Option Nat
deriving Repr, DecidableEq

/-- `MempoolOperation::received`. -/
def MempoolOperation.received (branch : BlockHashId) : MempoolOperation :=
  { branch := branch, state := .received, broadcast := false, protocol_data := none }

/-- `MempoolOperation::decoded`. -/
def MempoolOperation.decoded (op : MempoolOperation) (pd : Nat) : MempoolOperation :=
  { op with state := .decoded, protocol_data := some pd }

/-- `MempoolOperation::next_state`. -/
def MempoolOperation.nextState (op : MempoolOperation) (st : OperationState) :
    MempoolOperation :=
  { op with state := st }

/-- `MempoolOperation::broadcast`. -/
def MempoolOperation.markBroadcast (op : MempoolOperation) : MempoolOperation :=
  { op with broadcast := true }

/-- `PeerState`: what we expect from and know about one peer. -/
structure PeerState where
  requesting_full_content : NSet
  pending_full_content : NSet
  seen_operations : NSet
deriving Repr, DecidableEq

instance : Inhabited PeerState :=
  ⟨{ requesting_full_content := [], pending_full_content := [], seen_operations := [] }⟩

/-- `ValidatedOperations`: the classification buckets.  `applied`,
`branch_delayed`, `branch_refused` and `refused` record the protocol's
verdicts (only the hash of each `Applied`/`Errored` record matters
here); `ops` and `refused_ops` hold the operation payloads. -/
structure ValidatedOperations where
  ops : KMap Operation
  refused_ops : KMap Operation
  applied : List OpHash
  branch_delayed : List OpHash
  branch_refused : List OpHash
  refused : List OpHash
deriving Repr, DecidableEq

/-- `MempoolState`. -/
structure MempoolState where
  prevalidator : Option Nat
  injecting_rpc_ids : KMap RpcId
  injected_rpc_ids : KMap RpcId
  local_head_state : Option HeadState
  applied_block : NSet
  current_heads : KMap MempoolCurrentHead
  latest_current_head : Option BlockHashId
  peer_state : KMap PeerState
  pending_operations : KMap Operation
  wait_prevalidator_operations : List Operation
  validated_operations : ValidatedOperations
  operations_state : KMap MempoolOperation
deriving Repr, DecidableEq

/-- The empty mempool state. -/
def MempoolState.initial : MempoolState :=
  { prevalidator := none
    injecting_rpc_ids := []
    injected_rpc_ids := []
    local_head_state := none
    applied_block := []
    current_heads := []
    latest_current_head := none
    peer_state := []
    pending_operations := []
    wait_prevalidator_operations := []
    validated_operations :=
      { ops := [], refused_ops := [], applied := [], branch_delayed := []
        branch_refused := [], refused := [] }
    operations_state := [] }

/-- Mempool-relevant actions (`mempool_actions.rs`, plus the protocol and
prechecker responses the mempool reducer matches on).  Hash lists stand
for the `Vec<Applied>` / `Vec<Errored>` vectors, of which the reducer
only consumes the `hash` field. -/
inductive MempoolAction where
  | prevalidatorReady (pv : Nat)
  | operationValidated (pv : Nat)
      (applied refused branch_refused branch_delayed : List OpHash)
  | blockApplied (chain_id : Nat) (block : Header)
  | mempoolRecvDone (address : Address) (head_state : HeadState)
      (pending known_valid : List OpHash)
  | mempoolGetOperationsPending (address : Address)
  | mempoolOperationRecvDone (address : Address) (operation : Operation)
  | mempoolOperationInject (operation : Operation) (operation_hash : OpHash)
      (rpc_id : RpcId)
  | mempoolValidateWaitPrevalidator (operation : Operation)
  | mempoolCleanupWaitPrevalidator
  | precheckerResponseApplied (hash : OpHash)
  | precheckerResponseRefused (hash : OpHash)
  | precheckerResponsePrevalidate (hash : OpHash)
  | precheckerResponseError
  | mempoolRpcRespond
  | mempoolBroadcastDone (address : Address) (known_valid pending : List OpHash)
  | mempoolOperationDecoded (operation : OpHash) (protocol_data : Nat)
  | otherAction
deriving Repr, DecidableEq

/-! ## Mempool reducer (`mempool_reducer.rs`) -/

/-- One `result.applied` item of `ProtocolAction::OperationValidated`. -/
def validatedAppliedStep (s : MempoolState) (v : OpHash) : MempoolState :=
  let s :=
    match s.pending_operations.find? v with
    | some op =>
      { s with
        pending_operations := s.pending_operations.erase v
        validated_operations :=
          { s.validated_operations with
            ops := s.validated_operations.ops.insert v op
            applied := s.validated_operations.applied ++ [v] } }
    | none => s
  let s :=
    match s.injecting_rpc_ids.find? v with
    | some rpc_id =>
      { s with
        injecting_rpc_ids := s.injecting_rpc_ids.erase v
        injected_rpc_ids := s.injected_rpc_ids.insert v rpc_id }
    | none => s
  match s.operations_state.find? v with
  | some os =>
    if os.state = .decoded then
      { s with operations_state := s.operations_state.insert v (os.nextState .applied) }
    else s
  | none => s

/-- One `result.refused` item of `ProtocolAction::OperationValidated`. -/
def validatedRefusedStep (s : MempoolState) (v : OpHash) : MempoolState :=
  let s :=
    match s.pending_operations.find? v with
    | some op =>
      { s with
        pending_operations := s.pending_operations.erase v
        validated_operations :=
          { s.validated_operations with
            refused_ops := s.validated_operations.refused_ops.insert v op
            refused := s.validated_operations.refused ++ [v] } }
    | none => s
  let s :=
    match s.injecting_rpc_ids.find? v with
    | some rpc_id =>
      { s with
        injecting_rpc_ids := s.injecting_rpc_ids.erase v
        injected_rpc_ids := s.injected_rpc_ids.insert v rpc_id }
    | none => s
  match s.operations_state.find? v with
  | some os =>
    if os.state = .decoded then
      { s with operations_state := s.operations_state.insert v (os.nextState .refused) }
    else s
  | none => s

/-- One `result.branch_refused` item of `ProtocolAction::OperationValidated`
(note: the payload goes into `ops`, not `refused_ops`). -/
def validatedBranchRefusedStep (s : MempoolState) (v : OpHash) : MempoolState :=
  let s :=
    match s.pending_operations.find? v with
    | some op =>
      { s with
        pending_operations := s.pending_operations.erase v
        validated_operations :=
          { s.validated_operations with
            ops := s.validated_operations.ops.insert v op
            branch_refused := s.validated_operations.branch_refused ++ [v] } }
    | none => s
  let s :=
    match s.injecting_rpc_ids.find? v with
    | some rpc_id =>
      { s with
        injecting_rpc_ids := s.injecting_rpc_ids.erase v
        injected_rpc_ids := s.injected_rpc_ids.insert v rpc_id }
    | none => s
  match s.operations_state.find? v with
  | some os =>
    if os.state = .decoded then
      { s with operations_state := s.operations_state.insert v (os.nextState .branchRefused) }
    else s
  | none => s

/-- One `result.branch_delayed` item of `ProtocolAction::OperationValidated`
(payload goes into `ops`). -/
def validatedBranchDelayedStep (s : MempoolState) (v : OpHash) : MempoolState :=
  let s :=
    match s.pending_operations.find? v with
    | some op =>
      { s with
        pending_operations := s.pending_operations.erase v
        validated_operations :=
          { s.validated_operations with
            ops := s.validated_operations.ops.insert v op
            branch_delayed := s.validated_operations.branch_delayed ++ [v] } }
    | none => s
  let s :=
    match s.injecting_rpc_ids.find? v with
    | some rpc_id =>
      { s with
        injecting_rpc_ids := s.injecting_rpc_ids.erase v
        injected_rpc_ids := s.injected_rpc_ids.insert v rpc_id }
    | none => s
  match s.operations_state.find? v with
  | some os =>
    if os.state = .decoded then
      { s with operations_state := s.operations_state.insert v (os.nextState .branchDelayed) }
    else s
  | none => s

/-- The `PrecheckerPrecheckOperationResponse::Applied(applied)` arm
(same classification block as the protocol's `applied`, but the audit
state moves to `Prechecked`). -/
def precheckerAppliedStep (s : MempoolState) (hash : OpHash) : MempoolState :=
  let s :=
    match s.pending_operations.find? hash with
    | some op =>
      { s with
        pending_operations := s.pending_operations.erase hash
        validated_operations :=
          { s.validated_operations with
            ops := s.validated_operations.ops.insert hash op
            applied := s.validated_operations.applied ++ [hash] } }
    | none => s
  let s :=
    match s.injecting_rpc_ids.find? hash with
    | some rpc_id =>
      { s with
        injecting_rpc_ids := s.injecting_rpc_ids.erase hash
        injected_rpc_ids := s.injected_rpc_ids.insert hash rpc_id }
    | none => s
  match s.operations_state.find? hash with
  | some os =>
    if os.state = .decoded then
      { s with operations_state := s.operations_state.insert hash (os.nextState .prechecked) }
    else s
  | none => s

/-- The `PrecheckerPrecheckOperationResponse::Refused(errored)` arm. -/
def precheckerRefusedStep (s : MempoolState) (hash : OpHash) : MempoolState :=
  let s :=
    match s.pending_operations.find? hash with
    | some op =>
      { s with
        pending_operations := s.pending_operations.erase hash
        validated_operations :=
          { s.validated_operations with
            refused_ops := s.validated_operations.refused_ops.insert hash op
            refused := s.validated_operations.refused ++ [hash] } }
    | none => s
  let s :=
    match s.injecting_rpc_ids.find? hash with
    | some rpc_id =>
      { s with
        injecting_rpc_ids := s.injecting_rpc_ids.erase hash
        injected_rpc_ids := s.injected_rpc_ids.insert hash rpc_id }
    | none => s
  match s.operations_state.find? hash with
  | some os =>
    if os.state = .decoded then
      { s with
        operations_state := s.operations_state.insert hash (os.nextState .precheckRefused) }
    else s
  | none => s

/-- The per-announced-hash body of the `MempoolRecvDone` loop: unknown
hashes are recorded in the peer's `requesting_full_content` and
`seen_operations` and get a `received` audit entry. -/
def recvDoneHashStep (pending_ops : KMap Operation) (validated_ops : KMap Operation)
    (block_hash : BlockHashId) (acc : PeerState × KMap MempoolOperation)
    (hash : OpHash) : PeerState × KMap MempoolOperation :=
  let known := pending_ops.contains hash || validated_ops.contains hash
  if known then acc
  else
    ({ acc.1 with
        requesting_full_content := acc.1.requesting_full_content.insert hash
        seen_operations := acc.1.seen_operations.insert hash },
      acc.2.insert hash (MempoolOperation.received block_hash))

/-- `mempool_reducer` (`mempool_reducer.rs`).  `opHash` embeds
`Operation::message_typed_hash` and `blockHash` embeds
`BlockHeader::message_typed_hash` (both from the external crypto
library; `none` is the `Err` case).  `disable_mempool` is
`state.config.disable_mempool`. -/
def mempoolReducer (opHash : Operation → Option OpHash)
    (blockHash : Header → Option BlockHashId) (disable_mempool : Bool)
    (s : MempoolState) (a : MempoolAction) : MempoolState :=
  if disable_mempool then s else
  match a with
  | .prevalidatorReady pv => { s with prevalidator := some pv }
  | .operationValidated pv applied refused branch_refused branch_delayed =>
    let s := { s with prevalidator := some pv }
    let s := applied.foldl validatedAppliedStep s
    let s := refused.foldl validatedRefusedStep s
    let s := branch_refused.foldl validatedBranchRefusedStep s
    branch_delayed.foldl validatedBranchDelayedStep s
  | .blockApplied chain_id block =>
    match HeadState.make blockHash chain_id block with
    | none => s
    | some head_state =>
      { s with
        applied_block := s.applied_block.insert head_state.block_hash
        local_head_state := some head_state }
  | .mempoolRecvDone address head_state pending known_valid =>
    let bh := head_state.block_hash
    let ch :=
      match s.current_heads.find? bh with
      | some v => v
      | none => { level := head_state.current_block.level, peers := [] }
    let s := { s with
      current_heads := s.current_heads.insert bh { ch with peers := ch.peers.insert address } }
    let s :=
      match s.latest_current_head with
      | some latest =>
        if latest = bh then s
        else
          match s.current_heads.find? latest with
          | some latest_head =>
            if latest_head.level = head_state.current_block.level then s
            else if latest_head.level < head_state.current_block.level then
              { s with latest_current_head := some bh }
            else s
          | none => s
      | none => { s with latest_current_head := some bh }
    let peer :=
      match s.peer_state.find? address with
      | some p => p
      | none => default
    let res := (pending ++ known_valid).foldl
      (recvDoneHashStep s.pending_operations s.validated_operations.ops bh)
      (peer, s.operations_state)
    { s with
      peer_state := s.peer_state.insert address res.1
      operations_state := res.2 }
  | .mempoolGetOperationsPending address =>
    let peer :=
      match s.peer_state.find? address with
      | some p => p
      | none => default
    { s with
      peer_state := s.peer_state.insert address
        { peer with
          pending_full_content :=
            peer.pending_full_content.extend peer.requesting_full_content
          requesting_full_content := [] } }
  | .mempoolOperationRecvDone address operation =>
    match opHash operation with
    | none => s
    | some operation_hash =>
      let peer :=
        match s.peer_state.find? address with
        | some p => p
        | none => default
      let peer := { peer with
        pending_full_content := peer.pending_full_content.erase operation_hash }
      { s with
        peer_state := s.peer_state.insert address peer
        pending_operations := s.pending_operations.insert operation_hash operation }
  | .mempoolOperationInject operation operation_hash rpc_id =>
    { s with
      injecting_rpc_ids := s.injecting_rpc_ids.insert operation_hash rpc_id
      pending_operations := s.pending_operations.insert operation_hash operation }
  | .mempoolValidateWaitPrevalidator operation =>
    { s with
      wait_prevalidator_operations := s.wait_prevalidator_operations ++ [operation] }
  | .mempoolCleanupWaitPrevalidator =>
    { s with wait_prevalidator_operations := [] }
  | .precheckerResponseApplied hash => precheckerAppliedStep s hash
  | .precheckerResponseRefused hash => precheckerRefusedStep s hash
  | .precheckerResponsePrevalidate _ => s
  | .precheckerResponseError => s
  | .mempoolRpcRespond => { s with injected_rpc_ids := [] }
  | .mempoolBroadcastDone address known_valid pending =>
    let peer :=
      match s.peer_state.find? address with
      | some p => p
      | none => default
    let peer := { peer with
      seen_operations := (peer.seen_operations.extend known_valid).extend pending }
    let s := { s with peer_state := s.peer_state.insert address peer }
    known_valid.foldl
      (fun s hash =>
        match s.operations_state.find? hash with
        | some os =>
          if os.state = .prechecked ∨ os.state = .applied then
            { s with operations_state := s.operations_state.insert hash os.markBroadcast }
          else s
        | none => s)
      s
  | .mempoolOperationDecoded operation protocol_data =>
    match s.operations_state.find? operation with
    | some os =>
      if os.state = .received then
        { s with operations_state := s.operations_state.insert operation (os.decoded protocol_data) }
      else s
    | none => s
  | .otherAction => s

/-! ## Mempool effects (`mempool_effects.rs`)

Effects run after the reducer has been applied to the same action; every
action an effect dispatches is itself reduced (and its own effects run)
before the effect continues (`redux_rs::Store::dispatch`). -/

/-- A JSON value sent back on an RPC channel (only the shapes the
mempool effects produce). -/
inductive JsonVal where
  | null
  | str (s : String)
deriving Repr, DecidableEq

/-- Payload of a `MempoolBroadcastAction`. -/
structure BroadcastArgs where
  address_exceptions : List Address
  head_state : HeadState
  known_valid : List OpHash
  pending : List OpHash
deriving Repr, DecidableEq

/-- A `CurrentHead` message handed to `PeerMessageWriteInitAction` by the
broadcast effect: destination address plus the filtered mempool. -/
structure SentMessage where
  address : Address
  head_state : HeadState
  known_valid : List OpHash
  pending : List OpHash
deriving Repr, DecidableEq

/-- The `MempoolOperationInject` arm of `mempool_effects`: with a local
head, broadcast everything and answer the RPC with `null`; without one,
answer `"head is not ready"` (and dispatch nothing else).  The
`known_valid` hashes are the classification verdict lists (named
`applied_operations` / `branch_delayed_operations` /
`branch_refused_operations` in the effects source). -/
def mempoolInjectEffect (s : MempoolState) (rpc_id : RpcId) :
    Option BroadcastArgs × (RpcId × JsonVal) :=
  match s.local_head_state with
  | some head_state =>
    let pending := s.pending_operations.map Prod.fst
    let known_valid := s.validated_operations.applied
      ++ s.validated_operations.branch_delayed
      ++ s.validated_operations.branch_refused
    (some { address_exceptions := [], head_state := head_state,
            known_valid := known_valid, pending := pending },
      (rpc_id, JsonVal.null))
  | none => (none, (rpc_id, JsonVal.str "head is not ready"))

/-- The `MempoolBroadcast` arm of `mempool_effects`.  `addrs` is the
snapshot of connected peer addresses (`state.peers.iter_addr()`).  For
each non-excepted address with a mempool `peer_state` entry the effect
filters both hash lists down to hashes the peer has not seen
(`seen_operations`, named `known_operations` in the effects source),
sends the `CurrentHead` message, and immediately dispatches
`MempoolBroadcastDone`, which the reducer applies before the next
address is processed. -/
def mempoolBroadcastStep (opHash : Operation → Option OpHash)
    (blockHash : Header → Option BlockHashId) (disable_mempool : Bool)
    (args : BroadcastArgs) (acc : MempoolState × List SentMessage)
    (address : Address) : MempoolState × List SentMessage :=
  if address ∈ args.address_exceptions then acc
  else
    match acc.1.peer_state.find? address with
    | none => acc
    | some peer =>
      let known_valid := args.known_valid.filter
        (fun h => !(peer.seen_operations.contains h))
      let pending := args.pending.filter
        (fun h => !(peer.seen_operations.contains h))
      let msg : SentMessage :=
        { address := address, head_state := args.head_state,
          known_valid := known_valid, pending := pending }
      (mempoolReducer opHash blockHash disable_mempool acc.1
          (.mempoolBroadcastDone address known_valid pending),
        acc.2 ++ [msg])

def mempoolBroadcastEffect (opHash : Operation → Option OpHash)
    (blockHash : Header → Option BlockHashId) (disable_mempool : Bool)
    (s : MempoolState) (args : BroadcastArgs) (addrs : List Address) :
    MempoolState × List SentMessage :=
  addrs.foldl (mempoolBroadcastStep opHash blockHash disable_mempool args) (s, [])

/-- The `seen_operations` set the mempool records for one peer. -/
def seenOf (s : MempoolState) (address : Address) : NSet :=
  match s.peer_state.find? address with
  | some p => p.seen_operations
  | none => []

/-- The `requesting_full_content` set for one peer. -/
def requestingOf (s : MempoolState) (address : Address) : NSet :=
  match s.peer_state.find? address with
  | some p => p.requesting_full_content
  | none => []

/-! ## Pointwise map lemmas -/

theorem KMap.find?_insert {V : Type} (m : KMap V) (k k' : Nat) (v : V) :
    (m.insert k v).find? k' = if k = k' then some v else m.find? k' := by
  by_cases h : k = k'
  · subst h; simp [KMap.find?_insert_self]
  · simp [h, KMap.find?_insert_ne m v h]

theorem KMap.find?_erase {V : Type} (m : KMap V) (k k' : Nat) :
    (m.erase k).find? k' = if k = k' then none else m.find? k' := by
  by_cases h : k = k'
  · subst h; simp [KMap.find?_erase_self]
  · simp [h, KMap.find?_erase_ne m h]

/-! ## Frame lemmas for the classification steps -/

theorem validatedAppliedStep_peer_state (s : MempoolState) (v : OpHash) :
    (validatedAppliedStep s v).peer_state = s.peer_state := by
  unfold validatedAppliedStep
  repeat' (first | rfl | split | dsimp only)

theorem validatedRefusedStep_peer_state (s : MempoolState) (v : OpHash) :
    (validatedRefusedStep s v).peer_state = s.peer_state := by
  unfold validatedRefusedStep
  repeat' (first | rfl | split | dsimp only)

theorem validatedBranchRefusedStep_peer_state (s : MempoolState) (v : OpHash) :
    (validatedBranchRefusedStep s v).peer_state = s.peer_state := by
  unfold validatedBranchRefusedStep
  repeat' (first | rfl | split | dsimp only)

theorem validatedBranchDelayedStep_peer_state (s : MempoolState) (v : OpHash) :
    (validatedBranchDelayedStep s v).peer_state = s.peer_state := by
  unfold validatedBranchDelayedStep
  repeat' (first | rfl | split | dsimp only)

theorem foldl_peer_state_eq {f : MempoolState → Nat → MempoolState}
    (hf : ∀ s v, (f s v).peer_state = s.peer_state) (l : List Nat) (s : MempoolState) :
    (l.foldl f s).peer_state = s.peer_state := by
  induction l generalizing s with
  | nil => rfl
  | cons a rest ih => simp [List.foldl_cons, ih, hf]

theorem validatedAppliedStep_maps (s : MempoolState) (v x : OpHash) :
    ((validatedAppliedStep s v).pending_operations.find? x
        = if x = v then none else s.pending_operations.find? x)
    ∧ ((validatedAppliedStep s v).validated_operations.ops.find? x
        = if x = v then
            (match s.pending_operations.find? v with
              | some op => some op
              | none => s.validated_operations.ops.find? v)
          else s.validated_operations.ops.find? x)
    ∧ ((validatedAppliedStep s v).validated_operations.refused_ops.find? x
        = s.validated_operations.refused_ops.find? x) := by
  unfold validatedAppliedStep
  rcases hp : s.pending_operations.find? v with _ | op <;>
    simp only [hp] <;>
    repeat' (first | split | dsimp only)
  all_goals by_cases hxv : x = v
  all_goals try simp_all [KMap.find?_insert, KMap.find?_erase]
  all_goals exact ⟨fun h => absurd h.symm hxv, fun h => absurd h.symm hxv⟩

theorem validatedRefusedStep_maps (s : MempoolState) (v x : OpHash) :
    ((validatedRefusedStep s v).pending_operations.find? x
        = if x = v then none else s.pending_operations.find? x)
    ∧ ((validatedRefusedStep s v).validated_operations.refused_ops.find? x
        = if x = v then
            (match s.pending_operations.find? v with
              | some op => some op
              | none => s.validated_operations.refused_ops.find? v)
          else s.validated_operations.refused_ops.find? x)
    ∧ ((validatedRefusedStep s v).validated_operations.ops.find? x
        = s.validated_operations.ops.find? x) := by
  unfold validatedRefusedStep
  rcases hp : s.pending_operations.find? v with _ | op <;>
    simp only [hp] <;>
    repeat' (first | split | dsimp only)
  all_goals by_cases hxv : x = v
  all_goals try simp_all [KMap.find?_insert, KMap.find?_erase]
  all_goals exact ⟨fun h => absurd h.symm hxv, fun h => absurd h.symm hxv⟩

theorem validatedBranchRefusedStep_maps (s : MempoolState) (v x : OpHash) :
    ((validatedBranchRefusedStep s v).pending_operations.find? x
        = if x = v then none else s.pending_operations.find? x)
    ∧ ((validatedBranchRefusedStep s v).validated_operations.ops.find? x
        = if x = v then
            (match s.pending_operations.find? v with
              | some op => some op
              | none => s.validated_operations.ops.find? v)
          else s.validated_operations.ops.find? x)
    ∧ ((validatedBranchRefusedStep s v).validated_operations.refused_ops.find? x
        = s.validated_operations.refused_ops.find? x) := by
  unfold validatedBranchRefusedStep
  rcases hp : s.pending_operations.find? v with _ | op <;>
    simp only [hp] <;>
    repeat' (first | split | dsimp only)
  all_goals by_cases hxv : x = v
  all_goals try simp_all [KMap.find?_insert, KMap.find?_erase]
  all_goals exact ⟨fun h => absurd h.symm hxv, fun h => absurd h.symm hxv⟩

theorem validatedBranchDelayedStep_maps (s : MempoolState) (v x : OpHash) :
    ((validatedBranchDelayedStep s v).pending_operations.find? x
        = if x = v then none else s.pending_operations.find? x)
    ∧ ((validatedBranchDelayedStep s v).validated_operations.ops.find? x
        = if x = v then
            (match s.pending_operations.find? v with
              | some op => some op
              | none => s.validated_operations.ops.find? v)
          else s.validated_operations.ops.find? x)
    ∧ ((validatedBranchDelayedStep s v).validated_operations.refused_ops.find? x
        = s.validated_operations.refused_ops.find? x) := by
  unfold validatedBranchDelayedStep
  rcases hp : s.pending_operations.find? v with _ | op <;>
    simp only [hp] <;>
    repeat' (first | split | dsimp only)
  all_goals by_cases hxv : x = v
  all_goals try simp_all [KMap.find?_insert, KMap.find?_erase]
  all_goals exact ⟨fun h => absurd h.symm hxv, fun h => absurd h.symm hxv⟩

theorem precheckerAppliedStep_peer_state (s : MempoolState) (v : OpHash) :
    (precheckerAppliedStep s v).peer_state = s.peer_state := by
  unfold precheckerAppliedStep
  repeat' (first | rfl | split | dsimp only)

theorem precheckerRefusedStep_peer_state (s : MempoolState) (v : OpHash) :
    (precheckerRefusedStep s v).peer_state = s.peer_state := by
  unfold precheckerRefusedStep
  repeat' (first | rfl | split | dsimp only)

theorem precheckerAppliedStep_maps (s : MempoolState) (v x : OpHash) :
    ((precheckerAppliedStep s v).pending_operations.find? x
        = if x = v then none else s.pending_operations.find? x)
    ∧ ((precheckerAppliedStep s v).validated_operations.ops.find? x
        = if x = v then
            (match s.pending_operations.find? v with
              | some op => some op
              | none => s.validated_operations.ops.find? v)
          else s.validated_operations.ops.find? x)
    ∧ ((precheckerAppliedStep s v).validated_operations.refused_ops.find? x
        = s.validated_operations.refused_ops.find? x) := by
  unfold precheckerAppliedStep
  rcases hp : s.pending_operations.find? v with _ | op <;>
    simp only [hp] <;>
    repeat' (first | split | dsimp only)
  all_goals by_cases hxv : x = v
  all_goals try simp_all [KMap.find?_insert, KMap.find?_erase]
  all_goals exact ⟨fun h => absurd h.symm hxv, fun h => absurd h.symm hxv⟩

theorem precheckerRefusedStep_maps (s : MempoolState) (v x : OpHash) :
    ((precheckerRefusedStep s v).pending_operations.find? x
        = if x = v then none else s.pending_operations.find? x)
    ∧ ((precheckerRefusedStep s v).validated_operations.refused_ops.find? x
        = if x = v then
            (match s.pending_operations.find? v with
              | some op => some op
              | none => s.validated_operations.refused_ops.find? v)
          else s.validated_operations.refused_ops.find? x)
    ∧ ((precheckerRefusedStep s v).validated_operations.ops.find? x
        = s.validated_operations.ops.find? x) := by
  unfold precheckerRefusedStep
  rcases hp : s.pending_operations.find? v with _ | op <;>
    simp only [hp] <;>
    repeat' (first | split | dsimp only)
  all_goals by_cases hxv : x = v
  all_goals try simp_all [KMap.find?_insert, KMap.find?_erase]
  all_goals exact ⟨fun h => absurd h.symm hxv, fun h => absurd h.symm hxv⟩

/-! ## Invariant I1: each hash lives in at most one bucket -/

/-- Invariant I1 of the spec, restricted as in the claim to
`pending_operations`, `validated_operations.ops` and
`validated_operations.refused_ops`: no hash is in two of them. -/
def ExclusiveBuckets (s : MempoolState) : Prop :=
  ∀ h : OpHash,
    ¬((s.pending_operations.find? h).isSome = true
        ∧ (s.validated_operations.ops.find? h).isSome = true)
    ∧ ¬((s.pending_operations.find? h).isSome = true
        ∧ (s.validated_operations.refused_ops.find? h).isSome = true)
    ∧ ¬((s.validated_operations.ops.find? h).isSome = true
        ∧ (s.validated_operations.refused_ops.find? h).isSome = true)

theorem exclusiveBuckets_initial : ExclusiveBuckets MempoolState.initial := by
  intro h
  refine ⟨?_, ?_, ?_⟩ <;> simp [MempoolState.initial, KMap.find?]

theorem exclusive_validatedAppliedStep (s : MempoolState) (v : OpHash)
    (h1 : ExclusiveBuckets s) : ExclusiveBuckets (validatedAppliedStep s v) := by
  intro x
  obtain ⟨e1, e2, e3⟩ := validatedAppliedStep_maps s v x
  rw [e1, e2, e3]
  by_cases hxv : x = v
  · subst hxv
    simp only [if_pos rfl]
    rcases hp : s.pending_operations.find? x with _ | op <;> simp only [hp]
    · simpa using (h1 x).2.2
    · have h3 := (h1 x).2.1
      refine ⟨by simp, by simp, ?_⟩
      intro hc
      exact h3 ⟨by simp [hp], hc.2⟩
  · simp only [if_neg hxv]
    exact h1 x

theorem exclusive_validatedRefusedStep (s : MempoolState) (v : OpHash)
    (h1 : ExclusiveBuckets s) : ExclusiveBuckets (validatedRefusedStep s v) := by
  intro x
  obtain ⟨e1, e2, e3⟩ := validatedRefusedStep_maps s v x
  rw [e1, e2, e3]
  by_cases hxv : x = v
  · subst hxv
    simp only [if_pos rfl]
    rcases hp : s.pending_operations.find? x with _ | op <;> simp only [hp]
    · simpa using (h1 x).2.2
    · have h2 := (h1 x).1
      refine ⟨by simp, by simp, ?_⟩
      intro hc
      exact h2 ⟨by simp [hp], hc.1⟩
  · simp only [if_neg hxv]
    exact h1 x

theorem exclusive_validatedBranchRefusedStep (s : MempoolState) (v : OpHash)
    (h1 : ExclusiveBuckets s) : ExclusiveBuckets (validatedBranchRefusedStep s v) := by
  intro x
  obtain ⟨e1, e2, e3⟩ := validatedBranchRefusedStep_maps s v x
  rw [e1, e2, e3]
  by_cases hxv : x = v
  · subst hxv
    simp only [if_pos rfl]
    rcases hp : s.pending_operations.find? x with _ | op <;> simp only [hp]
    · simpa using (h1 x).2.2
    · have h3 := (h1 x).2.1
      refine ⟨by simp, by simp, ?_⟩
      intro hc
      exact h3 ⟨by simp [hp], hc.2⟩
  · simp only [if_neg hxv]
    exact h1 x

theorem exclusive_validatedBranchDelayedStep (s : MempoolState) (v : OpHash)
    (h1 : ExclusiveBuckets s) : ExclusiveBuckets (validatedBranchDelayedStep s v) := by
  intro x
  obtain ⟨e1, e2, e3⟩ := validatedBranchDelayedStep_maps s v x
  rw [e1, e2, e3]
  by_cases hxv : x = v
  · subst hxv
    simp only [if_pos rfl]
    rcases hp : s.pending_operations.find? x with _ | op <;> simp only [hp]
    · simpa using (h1 x).2.2
    · have h3 := (h1 x).2.1
      refine ⟨by simp, by simp, ?_⟩
      intro hc
      exact h3 ⟨by simp [hp], hc.2⟩
  · simp only [if_neg hxv]
    exact h1 x

theorem exclusive_precheckerAppliedStep (s : MempoolState) (v : OpHash)
    (h1 : ExclusiveBuckets s) : ExclusiveBuckets (precheckerAppliedStep s v) := by
  intro x
  obtain ⟨e1, e2, e3⟩ := precheckerAppliedStep_maps s v x
  rw [e1, e2, e3]
  by_cases hxv : x = v
  · subst hxv
    simp only [if_pos rfl]
    rcases hp : s.pending_operations.find? x with _ | op <;> simp only [hp]
    · simpa using (h1 x).2.2
    · have h3 := (h1 x).2.1
      refine ⟨by simp, by simp, ?_⟩
      intro hc
      exact h3 ⟨by simp [hp], hc.2⟩
  · simp only [if_neg hxv]
    exact h1 x

theorem exclusive_precheckerRefusedStep (s : MempoolState) (v : OpHash)
    (h1 : ExclusiveBuckets s) : ExclusiveBuckets (precheckerRefusedStep s v) := by
  intro x
  obtain ⟨e1, e2, e3⟩ := precheckerRefusedStep_maps s v x
  rw [e1, e2, e3]
  by_cases hxv : x = v
  · subst hxv
    simp only [if_pos rfl]
    rcases hp : s.pending_operations.find? x with _ | op <;> simp only [hp]
    · simpa using (h1 x).2.2
    · have h2 := (h1 x).1
      refine ⟨by simp, by simp, ?_⟩
      intro hc
      exact h2 ⟨by simp [hp], hc.1⟩
  · simp only [if_neg hxv]
    exact h1 x

theorem exclusive_foldl {f : MempoolState → Nat → MempoolState}
    (hf : ∀ s v, ExclusiveBuckets s → ExclusiveBuckets (f s v)) :
    ∀ (l : List Nat) (s : MempoolState),
      ExclusiveBuckets s → ExclusiveBuckets (l.foldl f s) := by
  intro l
  induction l with
  | nil => exact fun s hs => hs
  | cons a rest ih => exact fun s hs => ih (f s a) (hf s a hs)

/-- The side condition under which the invariant is preserved: the
action does not re-introduce into `pending_operations` an operation
whose hash already sits in a validated bucket (the reducer inserts
unconditionally in the `MempoolOperationRecvDone` and
`MempoolOperationInject` arms). -/
def NoReintroduction (opHash : Operation → Option OpHash) (s : MempoolState) :
    MempoolAction → Prop
  | .mempoolOperationRecvDone _ operation =>
    match opHash operation with
    | some h =>
      s.validated_operations.ops.find? h = none
        ∧ s.validated_operations.refused_ops.find? h = none
    | none => True
  | .mempoolOperationInject _ operation_hash _ =>
    s.validated_operations.ops.find? operation_hash = none
      ∧ s.validated_operations.refused_ops.find? operation_hash = none
  | _ => True

theorem exclusive_mempoolReducer (opHash : Operation → Option OpHash)
    (blockHash : Header → Option BlockHashId) (disable_mempool : Bool)
    (s : MempoolState) (a : MempoolAction) (h1 : ExclusiveBuckets s)
    (hside : NoReintroduction opHash s a) :
    ExclusiveBuckets (mempoolReducer opHash blockHash disable_mempool s a) := by
  by_cases hd : disable_mempool = true
  · simpa [mempoolReducer, hd] using h1
  · have hd' : disable_mempool = false := by revert hd; cases disable_mempool <;> simp
    cases a with
    | prevalidatorReady pv =>
      simp only [mempoolReducer, hd', Bool.false_eq_true, if_false]
      exact h1
    | operationValidated pv ap rf brf brd =>
      simp only [mempoolReducer, hd', Bool.false_eq_true, if_false]
      exact exclusive_foldl exclusive_validatedBranchDelayedStep brd _
        (exclusive_foldl exclusive_validatedBranchRefusedStep brf _
          (exclusive_foldl exclusive_validatedRefusedStep rf _
            (exclusive_foldl exclusive_validatedAppliedStep ap _ h1)))
    | blockApplied chain_id block =>
      simp only [mempoolReducer, hd', Bool.false_eq_true, if_false]
      split <;> exact h1
    | mempoolRecvDone address head_state pending known_valid =>
      simp only [mempoolReducer, hd', Bool.false_eq_true, if_false]
      repeat' (first | split | dsimp only)
      all_goals exact h1
    | mempoolGetOperationsPending address =>
      simp only [mempoolReducer, hd', Bool.false_eq_true, if_false]
      exact h1
    | mempoolOperationRecvDone address operation =>
      simp only [mempoolReducer, hd', Bool.false_eq_true, if_false]
      rcases hh : opHash operation with _ | oph
      · exact h1
      · dsimp only [NoReintroduction] at hside
        rw [hh] at hside
        intro x
        by_cases hxv : x = oph
        · subst hxv
          refine ⟨?_, ?_, ?_⟩ <;> intro hc
          · rw [hside.1] at hc; simpa using hc.2
          · rw [hside.2] at hc; simpa using hc.2
          · rw [hside.1] at hc; simpa using hc.1
        · have e1 : ((s.pending_operations.insert oph operation).find? x)
              = s.pending_operations.find? x :=
            KMap.find?_insert_ne _ _ (fun hh' => hxv hh'.symm)
          refine ⟨?_, ?_, ?_⟩ <;> intro hc
          · obtain ⟨hcp, hco⟩ := hc
            rw [e1] at hcp
            exact (h1 x).1 ⟨hcp, hco⟩
          · obtain ⟨hcp, hco⟩ := hc
            rw [e1] at hcp
            exact (h1 x).2.1 ⟨hcp, hco⟩
          · exact (h1 x).2.2 hc
    | mempoolOperationInject operation operation_hash rpc_id =>
      simp only [mempoolReducer, hd', Bool.false_eq_true, if_false]
      dsimp only [NoReintroduction] at hside
      intro x
      by_cases hxv : x = operation_hash
      · subst hxv
        refine ⟨?_, ?_, ?_⟩ <;> intro hc
        · rw [hside.1] at hc; simpa using hc.2
        · rw [hside.2] at hc; simpa using hc.2
        · rw [hside.1] at hc; simpa using hc.1
      · have e1 : ((s.pending_operations.insert operation_hash operation).find? x)
            = s.pending_operations.find? x :=
          KMap.find?_insert_ne _ _ (fun hh' => hxv hh'.symm)
        refine ⟨?_, ?_, ?_⟩ <;> intro hc
        · obtain ⟨hcp, hco⟩ := hc
          rw [e1] at hcp
          exact (h1 x).1 ⟨hcp, hco⟩
        · obtain ⟨hcp, hco⟩ := hc
          rw [e1] at hcp
          exact (h1 x).2.1 ⟨hcp, hco⟩
        · exact (h1 x).2.2 hc
    | mempoolValidateWaitPrevalidator operation =>
      simp only [mempoolReducer, hd', Bool.false_eq_true, if_false]
      exact h1
    | mempoolCleanupWaitPrevalidator =>
      simp only [mempoolReducer, hd', Bool.false_eq_true, if_false]
      exact h1
    | precheckerResponseApplied hash =>
      simp only [mempoolReducer, hd', Bool.false_eq_true, if_false]
      exact exclusive_precheckerAppliedStep s hash h1
    | precheckerResponseRefused hash =>
      simp only [mempoolReducer, hd', Bool.false_eq_true, if_false]
      exact exclusive_precheckerRefusedStep s hash h1
    | precheckerResponsePrevalidate hash =>
      simp only [mempoolReducer, hd', Bool.false_eq_true, if_false]
      exact h1
    | precheckerResponseError =>
      simp only [mempoolReducer, hd', Bool.false_eq_true, if_false]
      exact h1
    | mempoolRpcRespond =>
      simp only [mempoolReducer, hd', Bool.false_eq_true, if_false]
      exact h1
    | mempoolBroadcastDone address known_valid pending =>
      simp only [mempoolReducer, hd', Bool.false_eq_true, if_false]
      have frame : ∀ (l : List OpHash) (t : MempoolState),
          (l.foldl (fun s hash =>
            match s.operations_state.find? hash with
            | some os =>
              if os.state = .prechecked ∨ os.state = .applied then
                { s with operations_state := s.operations_state.insert hash os.markBroadcast }
              else s
            | none => s) t).pending_operations = t.pending_operations
          ∧ (l.foldl (fun s hash =>
            match s.operations_state.find? hash with
            | some os =>
              if os.state = .prechecked ∨ os.state = .applied then
                { s with operations_state := s.operations_state.insert hash os.markBroadcast }
              else s
            | none => s) t).validated_operations = t.validated_operations := by
        intro l
        induction l with
        | nil => exact fun t => ⟨rfl, rfl⟩
        | cons a rest ih =>
          intro t
          simp only [List.foldl_cons]
          constructor
          · rw [(ih _).1]
            repeat' (first | rfl | split | dsimp only)
          · rw [(ih _).2]
            repeat' (first | rfl | split | dsimp only)
      intro x
      obtain ⟨f1, f2⟩ := frame known_valid _
      rw [f1, f2]
      exact h1 x
    | mempoolOperationDecoded operation protocol_data =>
      simp only [mempoolReducer, hd', Bool.false_eq_true, if_false]
      repeat' (first | split | dsimp only)
      all_goals exact h1
    | otherAction =>
      simp only [mempoolReducer, hd', Bool.false_eq_true, if_false]
      exact h1

/-! ## Monotonicity of `seen_operations` -/

theorem recvDoneFold_seen_mono (po vo : KMap Operation) (bh : BlockHashId)
    (l : List OpHash) (acc : PeerState × KMap MempoolOperation) {h : OpHash}
    (hm : h ∈ acc.1.seen_operations) :
    h ∈ ((l.foldl (recvDoneHashStep po vo bh) acc).1).seen_operations := by
  induction l generalizing acc with
  | nil => exact hm
  | cons a rest ih =>
    simp only [List.foldl_cons]
    apply ih
    unfold recvDoneHashStep
    dsimp only
    split
    · exact hm
    · exact NSet.mem_insert_iff.mpr (Or.inr hm)

theorem recvDoneFold_requesting_mono (po vo : KMap Operation) (bh : BlockHashId)
    (l : List OpHash) (acc : PeerState × KMap MempoolOperation) {h : OpHash}
    (hm : h ∈ acc.1.requesting_full_content) :
    h ∈ ((l.foldl (recvDoneHashStep po vo bh) acc).1).requesting_full_content := by
  induction l generalizing acc with
  | nil => exact hm
  | cons a rest ih =>
    simp only [List.foldl_cons]
    apply ih
    unfold recvDoneHashStep
    dsimp only
    split
    · exact hm
    · exact NSet.mem_insert_iff.mpr (Or.inr hm)

/-- A hash announced by the peer and unknown locally ends up both in
`requesting_full_content` and in `seen_operations`. -/
theorem recvDoneFold_adds (po vo : KMap Operation) (bh : BlockHashId)
    (l : List OpHash) (acc : PeerState × KMap MempoolOperation) {h : OpHash}
    (hmem : h ∈ l) (hunknown : (po.contains h || vo.contains h) = false) :
    h ∈ ((l.foldl (recvDoneHashStep po vo bh) acc).1).requesting_full_content
      ∧ h ∈ ((l.foldl (recvDoneHashStep po vo bh) acc).1).seen_operations := by
  induction l generalizing acc with
  | nil => cases hmem
  | cons a rest ih =>
    simp only [List.foldl_cons]
    rcases List.mem_cons.mp hmem with rfl | hmem'
    · constructor
      · apply recvDoneFold_requesting_mono
        unfold recvDoneHashStep
        dsimp only
        rw [hunknown]
        simp only [Bool.false_eq_true, if_false]
        exact NSet.mem_insert_iff.mpr (Or.inl rfl)
      · apply recvDoneFold_seen_mono
        unfold recvDoneHashStep
        dsimp only
        rw [hunknown]
        simp only [Bool.false_eq_true, if_false]
        exact NSet.mem_insert_iff.mpr (Or.inl rfl)
    · exact ih _ hmem'

theorem broadcastDoneFold_peer_state (l : List OpHash) (t : MempoolState) :
    (l.foldl (fun s hash =>
      match s.operations_state.find? hash with
      | some os =>
        if os.state = .prechecked ∨ os.state = .applied then
          { s with operations_state := s.operations_state.insert hash os.markBroadcast }
        else s
      | none => s) t).peer_state = t.peer_state := by
  induction l generalizing t with
  | nil => rfl
  | cons a rest ih =>
    simp only [List.foldl_cons]
    rw [ih]
    repeat' (first | rfl | split | dsimp only)

/-- Auxiliary for `MempoolRecvDone`: inserting the folded peer entry
only grows `seen_operations`. -/
theorem seen_after_recvDone (s t : MempoolState) (address addr : Address)
    (l : List OpHash) (bh : BlockHashId) {h : OpHash}
    (hpe : t.peer_state = s.peer_state)
    (hm : h ∈ seenOf s addr) :
    h ∈ (match (t.peer_state.insert address
        ((l.foldl (recvDoneHashStep t.pending_operations t.validated_operations.ops bh)
          ((match t.peer_state.find? address with
            | some p => p
            | none => default), t.operations_state)).1)).find? addr with
      | some p => p.seen_operations
      | none => ([] : NSet)) := by
  unfold seenOf at hm
  rw [hpe]
  by_cases haddr : address = addr
  · subst haddr
    rw [KMap.find?_insert_self]
    rcases hps : s.peer_state.find? address with _ | p
    · rw [hps] at hm
      dsimp only at hm
      cases hm
    · rw [hps] at hm
      dsimp only at hm ⊢
      exact recvDoneFold_seen_mono _ _ _ _ _ hm
  · rw [KMap.find?_insert_ne _ _ haddr]
    exact hm

/-- Once a hash is in a peer's `seen_operations`, no mempool reducer
action removes it. -/
theorem seenOf_mempoolReducer_mono (opHash : Operation → Option OpHash)
    (blockHash : Header → Option BlockHashId) (disable_mempool : Bool)
    (s : MempoolState) (a : MempoolAction) (addr : Address) {h : OpHash}
    (hm : h ∈ seenOf s addr) :
    h ∈ seenOf (mempoolReducer opHash blockHash disable_mempool s a) addr := by
  by_cases hd : disable_mempool = true
  · simpa [mempoolReducer, hd] using hm
  · have hd' : disable_mempool = false := by revert hd; cases disable_mempool <;> simp
    cases a with
    | prevalidatorReady pv =>
      simpa only [mempoolReducer, hd', Bool.false_eq_true, if_false] using hm
    | operationValidated pv ap rf brf brd =>
      simp only [mempoolReducer, hd', Bool.false_eq_true, if_false]
      unfold seenOf at hm ⊢
      rw [foldl_peer_state_eq validatedBranchDelayedStep_peer_state,
        foldl_peer_state_eq validatedBranchRefusedStep_peer_state,
        foldl_peer_state_eq validatedRefusedStep_peer_state,
        foldl_peer_state_eq validatedAppliedStep_peer_state]
      exact hm
    | blockApplied chain_id block =>
      simp only [mempoolReducer, hd', Bool.false_eq_true, if_false]
      unfold seenOf at hm ⊢
      rcases hmk : HeadState.make blockHash chain_id block with _ | hs <;>
        simp only [hmk] <;> exact hm
    | mempoolRecvDone address head_state pending known_valid =>
      simp only [mempoolReducer, hd', Bool.false_eq_true, if_false]
      unfold seenOf
      dsimp only
      refine seen_after_recvDone s _ address addr _ _ ?_ hm
      repeat' (first | rfl | split | dsimp only)
    | mempoolGetOperationsPending address =>
      simp only [mempoolReducer, hd', Bool.false_eq_true, if_false]
      unfold seenOf at hm ⊢
      by_cases haddr : address = addr
      · subst haddr
        rcases hps : s.peer_state.find? address with _ | p
        · rw [hps] at hm
          dsimp only at hm
          cases hm
        · rw [hps] at hm
          dsimp only at hm
          rw [KMap.find?_insert_self]
          dsimp only
          exact hm
      · rw [KMap.find?_insert_ne _ _ haddr]
        exact hm
    | mempoolOperationRecvDone address operation =>
      simp only [mempoolReducer, hd', Bool.false_eq_true, if_false]
      unfold seenOf at hm ⊢
      rcases hh : opHash operation with _ | oph
      · exact hm
      · by_cases haddr : address = addr
        · subst haddr
          rcases hps : s.peer_state.find? address with _ | p
          · rw [hps] at hm
            dsimp only at hm
            cases hm
          · rw [hps] at hm
            dsimp only at hm
            rw [KMap.find?_insert_self]
            dsimp only
            exact hm
        · rw [KMap.find?_insert_ne _ _ haddr]
          exact hm
    | mempoolOperationInject operation operation_hash rpc_id =>
      simpa only [mempoolReducer, hd', Bool.false_eq_true, if_false] using hm
    | mempoolValidateWaitPrevalidator operation =>
      simpa only [mempoolReducer, hd', Bool.false_eq_true, if_false] using hm
    | mempoolCleanupWaitPrevalidator =>
      simpa only [mempoolReducer, hd', Bool.false_eq_true, if_false] using hm
    | precheckerResponseApplied hash =>
      simp only [mempoolReducer, hd', Bool.false_eq_true, if_false]
      unfold seenOf at hm ⊢
      rw [precheckerAppliedStep_peer_state]
      exact hm
    | precheckerResponseRefused hash =>
      simp only [mempoolReducer, hd', Bool.false_eq_true, if_false]
      unfold seenOf at hm ⊢
      rw [precheckerRefusedStep_peer_state]
      exact hm
    | precheckerResponsePrevalidate hash =>
      simpa only [mempoolReducer, hd', Bool.false_eq_true, if_false] using hm
    | precheckerResponseError =>
      simpa only [mempoolReducer, hd', Bool.false_eq_true, if_false] using hm
    | mempoolRpcRespond =>
      simpa only [mempoolReducer, hd', Bool.false_eq_true, if_false] using hm
    | mempoolBroadcastDone address known_valid pending =>
      simp only [mempoolReducer, hd', Bool.false_eq_true, if_false]
      unfold seenOf at hm ⊢
      rw [broadcastDoneFold_peer_state]
      by_cases haddr : address = addr
      · subst haddr
        rcases hps : s.peer_state.find? address with _ | p
        · rw [hps] at hm
          dsimp only at hm
          cases hm
        · rw [hps] at hm
          dsimp only at hm
          rw [KMap.find?_insert_self]
          dsimp only
          exact NSet.subset_extend _ _ (NSet.subset_extend _ _ hm)
      · rw [KMap.find?_insert_ne _ _ haddr]
        exact hm
    | mempoolOperationDecoded operation protocol_data =>
      simp only [mempoolReducer, hd', Bool.false_eq_true, if_false]
      unfold seenOf at hm ⊢
      rcases hos : s.operations_state.find? operation with _ | os
      · exact hm
      · dsimp only
        by_cases hrec : os.state = OperationState.received
        · rw [if_pos hrec]
          exact hm
        · rw [if_neg hrec]
          exact hm
    | otherAction =>
      simpa only [mempoolReducer, hd', Bool.false_eq_true, if_false] using hm

/-- Folding the mempool reducer over a list of actions (the action log). -/
def mempoolReduceAll (opHash : Operation → Option OpHash)
    (blockHash : Header → Option BlockHashId) (disable_mempool : Bool)
    (s : MempoolState) (actions : List MempoolAction) : MempoolState :=
  actions.foldl (mempoolReducer opHash blockHash disable_mempool) s

theorem seenOf_mempoolReduceAll_mono (opHash : Operation → Option OpHash)
    (blockHash : Header → Option BlockHashId) (disable_mempool : Bool)
    (actions : List MempoolAction) (s : MempoolState) (addr : Address) {h : OpHash}
    (hm : h ∈ seenOf s addr) :
    h ∈ seenOf (mempoolReduceAll opHash blockHash disable_mempool s actions) addr := by
  induction actions generalizing s with
  | nil => exact hm
  | cons a rest ih =>
    exact ih _ (seenOf_mempoolReducer_mono opHash blockHash disable_mempool s a addr hm)

/-- `MempoolBroadcastDone` for one address does not touch any other
address's peer entry. -/
theorem find?_peer_broadcastDone_other (opHash : Operation → Option OpHash)
    (blockHash : Header → Option BlockHashId) (disable_mempool : Bool)
    (s : MempoolState) (address addr : Address) (kv pd : List OpHash)
    (hne : address ≠ addr) :
    (mempoolReducer opHash blockHash disable_mempool s
        (.mempoolBroadcastDone address kv pd)).peer_state.find? addr
      = s.peer_state.find? addr := by
  by_cases hd : disable_mempool = true
  · simp [mempoolReducer, hd]
  · have hd' : disable_mempool = false := by revert hd; cases disable_mempool <;> simp
    simp only [mempoolReducer, hd', Bool.false_eq_true, if_false]
    rw [broadcastDoneFold_peer_state]
    exact KMap.find?_insert_ne _ _ hne

/-- `MempoolBroadcastDone` records the two hash lists in the peer's
`seen_operations` (mempool enabled). -/
theorem seen_broadcastDone_self (opHash : Operation → Option OpHash)
    (blockHash : Header → Option BlockHashId)
    (s : MempoolState) (address : Address) (kv pd : List OpHash) {h : OpHash}
    (hmem : h ∈ kv ∨ h ∈ pd) :
    h ∈ seenOf (mempoolReducer opHash blockHash false s
        (.mempoolBroadcastDone address kv pd)) address := by
  simp only [mempoolReducer, Bool.false_eq_true, if_false]
  unfold seenOf
  rw [broadcastDoneFold_peer_state]
  dsimp only
  rw [KMap.find?_insert_self]
  dsimp only
  rcases hmem with hkv | hpd
  · exact NSet.subset_extend _ _ (NSet.mem_extend_iff.mpr (Or.inl hkv))
  · exact NSet.mem_extend_iff.mpr (Or.inl hpd)


theorem broadcastStep_acc (opHash : Operation → Option OpHash)
    (blockHash : Header → Option BlockHashId) (disable_mempool : Bool)
    (args : BroadcastArgs) (acc : MempoolState × List SentMessage) (a : Address) :
    (mempoolBroadcastStep opHash blockHash disable_mempool args acc a).1
        = (mempoolBroadcastStep opHash blockHash disable_mempool args (acc.1, []) a).1
    ∧ (mempoolBroadcastStep opHash blockHash disable_mempool args acc a).2
        = acc.2 ++ (mempoolBroadcastStep opHash blockHash disable_mempool args (acc.1, []) a).2 := by
  unfold mempoolBroadcastStep
  by_cases hexc : a ∈ args.address_exceptions
  · simp [hexc]
  · rw [if_neg hexc, if_neg hexc]
    rcases hps : acc.1.peer_state.find? a with _ | p <;> simp [hps]

theorem broadcastEffect_acc (opHash : Operation → Option OpHash)
    (blockHash : Header → Option BlockHashId) (disable_mempool : Bool)
    (args : BroadcastArgs) (rest : List Address) (t : MempoolState)
    (ms : List SentMessage) :
    rest.foldl (mempoolBroadcastStep opHash blockHash disable_mempool args) (t, ms)
      = ((mempoolBroadcastEffect opHash blockHash disable_mempool t args rest).1,
          ms ++ (mempoolBroadcastEffect opHash blockHash disable_mempool t args rest).2) := by
  induction rest generalizing t ms with
  | nil => simp [mempoolBroadcastEffect]
  | cons a rest ih =>
    unfold mempoolBroadcastEffect
    rw [List.foldl_cons, List.foldl_cons]
    obtain ⟨h1, h2⟩ := broadcastStep_acc opHash blockHash disable_mempool args (t, ms) a
    rw [ih ((mempoolBroadcastStep opHash blockHash disable_mempool args (t, ms) a).1)
        ((mempoolBroadcastStep opHash blockHash disable_mempool args (t, ms) a).2),
      ih ((mempoolBroadcastStep opHash blockHash disable_mempool args (t, []) a).1)
        ((mempoolBroadcastStep opHash blockHash disable_mempool args (t, []) a).2)]
    rw [h1, h2]
    simp

/-- Characterization of the messages a `MempoolBroadcast` effect sends:
every sent message goes to a non-excepted connected address that has a
peer entry, and carries exactly the two hash lists filtered by that
peer's `seen_operations` as they were when the broadcast started. -/
theorem broadcast_sends_characterized (opHash : Operation → Option OpHash)
    (blockHash : Header → Option BlockHashId) (args : BroadcastArgs) :
    ∀ (addrs : List Address) (s : MempoolState), addrs.Nodup →
      ∀ msg ∈ (mempoolBroadcastEffect opHash blockHash false s args addrs).2,
        msg.address ∈ addrs ∧ msg.address ∉ args.address_exceptions
        ∧ ∃ p, s.peer_state.find? msg.address = some p
            ∧ msg.known_valid = args.known_valid.filter
                (fun h => !(p.seen_operations.contains h))
            ∧ msg.pending = args.pending.filter
                (fun h => !(p.seen_operations.contains h))
            ∧ msg.head_state = args.head_state := by
  intro addrs
  induction addrs with
  | nil => intro s _ msg hmsg; cases hmsg
  | cons a rest ih =>
    intro s hnodup msg hmsg
    obtain ⟨hna, hnrest⟩ := List.nodup_cons.mp hnodup
    unfold mempoolBroadcastEffect at hmsg
    rw [List.foldl_cons] at hmsg
    rw [broadcastEffect_acc] at hmsg
    dsimp only at hmsg
    unfold mempoolBroadcastStep at hmsg
    by_cases hexc : a ∈ args.address_exceptions
    · rw [if_pos hexc] at hmsg
      dsimp only at hmsg
      rw [List.nil_append] at hmsg
      have := ih s hnrest msg hmsg
      exact ⟨List.mem_cons.mpr (Or.inr this.1), this.2.1, this.2.2⟩
    · rw [if_neg hexc] at hmsg
      rcases hps : s.peer_state.find? a with _ | p
      · rw [hps] at hmsg
        dsimp only at hmsg
        rw [List.nil_append] at hmsg
        have := ih s hnrest msg hmsg
        exact ⟨List.mem_cons.mpr (Or.inr this.1), this.2.1, this.2.2⟩
      · rw [hps] at hmsg
        dsimp only at hmsg
        rcases List.mem_append.mp hmsg with h0 | hrec
        · have hmsg0 : msg =
              { address := a, head_state := args.head_state,
                known_valid := args.known_valid.filter
                  (fun h => !(p.seen_operations.contains h)),
                pending := args.pending.filter
                  (fun h => !(p.seen_operations.contains h)) } := by
            simpa using h0
          subst hmsg0
          exact ⟨List.mem_cons.mpr (Or.inl rfl), hexc,
            ⟨p, hps, rfl, rfl, rfl⟩⟩
        · have hr := ih _ hnrest msg hrec
          obtain ⟨hmem, hnex, q, hq, hkv, hpd, hhs⟩ := hr
          have hne : a ≠ msg.address := fun he => hna (he ▸ hmem)
          refine ⟨List.mem_cons.mpr (Or.inr hmem), hnex, q, ?_, hkv, hpd, hhs⟩
          rw [← hq]
          exact (find?_peer_broadcastDone_other opHash blockHash false s a
            msg.address _ _ hne).symm

/-- Every non-excepted connected address with a peer entry receives the
filtered `CurrentHead` message. -/
theorem broadcast_sends_to (opHash : Operation → Option OpHash)
    (blockHash : Header → Option BlockHashId) (args : BroadcastArgs) :
    ∀ (addrs : List Address) (s : MempoolState), addrs.Nodup →
      ∀ addr ∈ addrs, addr ∉ args.address_exceptions →
        ∀ p, s.peer_state.find? addr = some p →
          ({ address := addr, head_state := args.head_state,
             known_valid := args.known_valid.filter
               (fun h => !(p.seen_operations.contains h)),
             pending := args.pending.filter
               (fun h => !(p.seen_operations.contains h)) } : SentMessage)
            ∈ (mempoolBroadcastEffect opHash blockHash false s args addrs).2 := by
  intro addrs
  induction addrs with
  | nil => intro s _ addr haddr; cases haddr
  | cons a rest ih =>
    intro s hnodup addr haddr hnex p hp
    obtain ⟨hna, hnrest⟩ := List.nodup_cons.mp hnodup
    unfold mempoolBroadcastEffect
    rw [List.foldl_cons, broadcastEffect_acc]
    dsimp only
    unfold mempoolBroadcastStep
    rcases List.mem_cons.mp haddr with rfl | hrest
    · rw [if_neg hnex, hp]
      dsimp only
      exact List.mem_append.mpr (Or.inl (List.mem_singleton.mpr rfl))
    · have hne : a ≠ addr := fun he => hna (he ▸ hrest)
      by_cases hexc : a ∈ args.address_exceptions
      · rw [if_pos hexc]
        dsimp only
        rw [List.nil_append]
        exact ih s hnrest addr hrest hnex p hp
      · rw [if_neg hexc]
        rcases hps : s.peer_state.find? a with _ | q
        · dsimp only
          rw [List.nil_append]
          exact ih s hnrest addr hrest hnex p hp
        · dsimp only
          apply List.mem_append.mpr
          right
          apply ih _ hnrest addr hrest hnex p
          rw [find?_peer_broadcastDone_other opHash blockHash false s a addr _ _ hne]
          exact hp

theorem broadcastEffect_seen_mono (opHash : Operation → Option OpHash)
    (blockHash : Header → Option BlockHashId) (args : BroadcastArgs) :
    ∀ (addrs : List Address) (s : MempoolState) (addr : Address) {h : OpHash},
      h ∈ seenOf s addr →
      h ∈ seenOf (mempoolBroadcastEffect opHash blockHash false s args addrs).1 addr := by
  intro addrs
  induction addrs with
  | nil => intro s addr h hm; exact hm
  | cons a rest ih =>
    intro s addr h hm
    unfold mempoolBroadcastEffect
    rw [List.foldl_cons, broadcastEffect_acc]
    dsimp only
    apply ih
    unfold mempoolBroadcastStep
    by_cases hexc : a ∈ args.address_exceptions
    · rw [if_pos hexc]; exact hm
    · rw [if_neg hexc]
      rcases hps : s.peer_state.find? a with _ | p
      · exact hm
      · dsimp only
        exact seenOf_mempoolReducer_mono opHash blockHash false s _ addr hm

/-- After the broadcast effect finishes, every hash it sent to a peer is
recorded in that peer's `seen_operations` (via `MempoolBroadcastDone`). -/
theorem broadcast_seen_added (opHash : Operation → Option OpHash)
    (blockHash : Header → Option BlockHashId) (args : BroadcastArgs) :
    ∀ (addrs : List Address) (s : MempoolState)
      (msg : SentMessage),
      msg ∈ (mempoolBroadcastEffect opHash blockHash false s args addrs).2 →
      ∀ {h : OpHash}, (h ∈ msg.known_valid ∨ h ∈ msg.pending) →
      h ∈ seenOf (mempoolBroadcastEffect opHash blockHash false s args addrs).1
          msg.address := by
  intro addrs
  induction addrs with
  | nil => intro s msg hmsg; cases hmsg
  | cons a rest ih =>
    intro s msg hmsg h hmem
    unfold mempoolBroadcastEffect at hmsg ⊢
    rw [List.foldl_cons, broadcastEffect_acc] at hmsg ⊢
    dsimp only at hmsg ⊢
    unfold mempoolBroadcastStep at hmsg ⊢
    by_cases hexc : a ∈ args.address_exceptions
    · rw [if_pos hexc] at hmsg ⊢
      dsimp only at hmsg
      rw [List.nil_append] at hmsg
      exact ih s msg hmsg hmem
    · rw [if_neg hexc] at hmsg ⊢
      rcases hps : s.peer_state.find? a with _ | p
      · try simp only [hps] at hmsg ⊢
        try dsimp only at hmsg ⊢
        rw [List.nil_append] at hmsg
        exact ih s msg hmsg hmem
      · try simp only [hps] at hmsg ⊢
        try dsimp only at hmsg ⊢
        rcases List.mem_append.mp hmsg with h0 | hrec
        · have hmsg0 : msg =
              { address := a, head_state := args.head_state,
                known_valid := args.known_valid.filter
                  (fun h => !(p.seen_operations.contains h)),
                pending := args.pending.filter
                  (fun h => !(p.seen_operations.contains h)) } := by
            simpa using h0
          subst hmsg0
          apply broadcastEffect_seen_mono
          exact seen_broadcastDone_self opHash blockHash s a _ _ hmem
        · exact ih _ msg hrec hmem

/-- Auxiliary for `MempoolRecvDone`: an announced hash that is unknown
locally lands in the folded peer entry's `requesting_full_content` and
`seen_operations`. -/
theorem recvDone_adds_helper (s t : MempoolState) (address : Address)
    (l : List OpHash) (bh : BlockHashId) {h : OpHash}
    (hpe : t.peer_state = s.peer_state)
    (hpo : t.pending_operations = s.pending_operations)
    (hvo : t.validated_operations = s.validated_operations)
    (hmem : h ∈ l)
    (hunk : (s.pending_operations.contains h
      || s.validated_operations.ops.contains h) = false) :
    (h ∈ (match (t.peer_state.insert address
        ((l.foldl (recvDoneHashStep t.pending_operations t.validated_operations.ops bh)
          ((match t.peer_state.find? address with
            | some p => p
            | none => default), t.operations_state)).1)).find? address with
      | some p => p.requesting_full_content
      | none => ([] : NSet)))
    ∧ (h ∈ (match (t.peer_state.insert address
        ((l.foldl (recvDoneHashStep t.pending_operations t.validated_operations.ops bh)
          ((match t.peer_state.find? address with
            | some p => p
            | none => default), t.operations_state)).1)).find? address with
      | some p => p.seen_operations
      | none => ([] : NSet))) := by
  rw [hpe, hpo, hvo, KMap.find?_insert_self]
  dsimp only
  exact recvDoneFold_adds _ _ _ _ _ hmem hunk

/-! ## Claim theorems -/

/-- C1 counterexample: injecting an operation while
`local_head_state = None` does change the mempool state — the operation
is inserted into `pending_operations` and the rpc id into
`injecting_rpc_ids` by the reducer before the effect answers
`"head is not ready"`. -/
theorem claim_C1_counterexample :
    MempoolState.initial.local_head_state = none
    ∧ ((mempoolReducer (fun o => some o) (fun _ => none) false
        MempoolState.initial
        (.mempoolOperationInject 7 7 1)).pending_operations.find? 7 = some 7)
    ∧ ((mempoolReducer (fun o => some o) (fun _ => none) false
        MempoolState.initial
        (.mempoolOperationInject 7 7 1)).injecting_rpc_ids.find? 7 = some 1) := by
  refine ⟨rfl, ?_, ?_⟩ <;> decide

/-- C1 (amended): when `InjectOperation` arrives with
`local_head_state = None`, the node answers the RPC with
`"head is not ready"` and dispatches no broadcast, and the validated
buckets gain no entry; however the reducer still inserts the operation
into `pending_operations` and the rpc id into `injecting_rpc_ids`. -/
theorem claim_C1_inject_before_head (opHash : Operation → Option OpHash)
    (blockHash : Header → Option BlockHashId) (s : MempoolState)
    (op : Operation) (oph : OpHash) (rpc : RpcId)
    (hnone : s.local_head_state = none) :
    (mempoolInjectEffect
        (mempoolReducer opHash blockHash false s (.mempoolOperationInject op oph rpc))
        rpc).2 = (rpc, JsonVal.str "head is not ready")
    ∧ (mempoolInjectEffect
        (mempoolReducer opHash blockHash false s (.mempoolOperationInject op oph rpc))
        rpc).1 = none
    ∧ (mempoolReducer opHash blockHash false s
        (.mempoolOperationInject op oph rpc)).validated_operations
        = s.validated_operations
    ∧ (mempoolReducer opHash blockHash false s
        (.mempoolOperationInject op oph rpc)).pending_operations
        = s.pending_operations.insert oph op
    ∧ (mempoolReducer opHash blockHash false s
        (.mempoolOperationInject op oph rpc)).injecting_rpc_ids
        = s.injecting_rpc_ids.insert oph rpc := by
  simp only [mempoolReducer, Bool.false_eq_true, if_false]
  unfold mempoolInjectEffect
  simp only [hnone]
  exact ⟨trivial, trivial, trivial, trivial, trivial⟩

/-- Witness for C1 at a concrete input. -/
theorem claim_C1_witness :
    (mempoolInjectEffect
        (mempoolReducer (fun o => some o) (fun _ => none) false
          MempoolState.initial (.mempoolOperationInject 7 7 1))
        1).2 = (1, JsonVal.str "head is not ready") :=
  (claim_C1_inject_before_head (fun o => some o) (fun _ => none)
    MempoolState.initial 7 7 1 rfl).1

/-- C10: in `MempoolRecvDone` from peer `address`, every hash announced
in the message's `pending`/`known_valid` fields that is unknown locally
(neither pending nor validated) is inserted into both
`requesting_full_content` and `seen_operations` of that peer, and
consequently no later `MempoolBroadcast` — after any further mempool
actions — sends that hash back to the announcing peer. -/
theorem claim_C10_recvdone_marks_seen (opHash : Operation → Option OpHash)
    (blockHash : Header → Option BlockHashId) (s : MempoolState)
    (address : Address) (head_state : HeadState)
    (pending known_valid : List OpHash) {h : OpHash}
    (hmem : h ∈ pending ++ known_valid)
    (hunk : (s.pending_operations.contains h
      || s.validated_operations.ops.contains h) = false) :
    (h ∈ requestingOf (mempoolReducer opHash blockHash false s
        (.mempoolRecvDone address head_state pending known_valid)) address
    ∧ h ∈ seenOf (mempoolReducer opHash blockHash false s
        (.mempoolRecvDone address head_state pending known_valid)) address)
    ∧ ∀ (acts : List MempoolAction) (args : BroadcastArgs) (addrs : List Address),
        addrs.Nodup →
        ∀ msg ∈ (mempoolBroadcastEffect opHash blockHash false
            (mempoolReduceAll opHash blockHash false
              (mempoolReducer opHash blockHash false s
                (.mempoolRecvDone address head_state pending known_valid)) acts)
            args addrs).2,
          msg.address = address → h ∉ msg.known_valid ∧ h ∉ msg.pending := by
  have hreq0 : h ∈ requestingOf (mempoolReducer opHash blockHash false s
      (.mempoolRecvDone address head_state pending known_valid)) address := by
    simp only [mempoolReducer, Bool.false_eq_true, if_false]
    unfold requestingOf
    dsimp only
    refine (recvDone_adds_helper s _ address _ _ ?_ ?_ ?_ hmem hunk).1
    all_goals repeat' (first | rfl | split | dsimp only)
  have hseen0 : h ∈ seenOf (mempoolReducer opHash blockHash false s
      (.mempoolRecvDone address head_state pending known_valid)) address := by
    simp only [mempoolReducer, Bool.false_eq_true, if_false]
    unfold seenOf
    dsimp only
    refine (recvDone_adds_helper s _ address _ _ ?_ ?_ ?_ hmem hunk).2
    all_goals repeat' (first | rfl | split | dsimp only)
  refine ⟨⟨hreq0, hseen0⟩, ?_⟩
  intro acts args addrs hnodup msg hmsg haddr
  have hseen2 : h ∈ seenOf (mempoolReduceAll opHash blockHash false
      (mempoolReducer opHash blockHash false s
        (.mempoolRecvDone address head_state pending known_valid)) acts) address :=
    seenOf_mempoolReduceAll_mono _ _ _ _ _ _ hseen0
  obtain ⟨_, _, p, hp, hkv, hpd, _⟩ :=
    broadcast_sends_characterized opHash blockHash args addrs _ hnodup msg hmsg
  rw [haddr] at hp
  have hpseen : h ∈ p.seen_operations := by
    unfold seenOf at hseen2
    rw [hp] at hseen2
    exact hseen2
  constructor
  · intro hin
    rw [hkv] at hin
    have hfalse := (List.mem_filter.mp hin).2
    simp only [Bool.not_eq_true', NSet.contains] at hfalse
    exact absurd hpseen (by simpa using hfalse)
  · intro hin
    rw [hpd] at hin
    have hfalse := (List.mem_filter.mp hin).2
    simp only [Bool.not_eq_true', NSet.contains] at hfalse
    exact absurd hpseen (by simpa using hfalse)

/-- Witness for C10 at a concrete input. -/
theorem claim_C10_witness :
    5 ∈ requestingOf (mempoolReducer (fun o => some o) (fun _ => none) false
        MempoolState.initial
        (.mempoolRecvDone 3 ⟨0, ⟨1, 0, 0⟩, 11⟩ [5] [])) 3
    ∧ 5 ∈ seenOf (mempoolReducer (fun o => some o) (fun _ => none) false
        MempoolState.initial
        (.mempoolRecvDone 3 ⟨0, ⟨1, 0, 0⟩, 11⟩ [5] [])) 3 :=
  (claim_C10_recvdone_marks_seen (fun o => some o) (fun _ => none)
      MempoolState.initial 3 ⟨0, ⟨1, 0, 0⟩, 11⟩ [5] []
      (by decide) (by decide)).1

/-- C4 counterexample: a connected peer that has no mempool
`peer_state` entry is skipped by the broadcast effect — no `CurrentHead`
message is sent to it although it is connected and not in
`address_exceptions`. -/
theorem claim_C4_counterexample :
    (mempoolBroadcastEffect (fun o => some o) (fun _ => none) false
        MempoolState.initial
        { address_exceptions := [], head_state := ⟨0, ⟨1, 0, 0⟩, 11⟩,
          known_valid := [1], pending := [] } [7]).2 = []
    ∧ (7 : Address) ∉ ([] : List Address) := by
  refine ⟨?_, ?_⟩ <;> decide

/-- C4 (amended): in a `MempoolBroadcast`, every connected peer that is
not in `address_exceptions` *and has a mempool peer entry* is sent a
`CurrentHead` message whose `known_valid`/`pending` lists are exactly
the input lists filtered down to hashes outside that peer's
`seen_operations` (peers without an entry are skipped); the sent hashes
are then recorded in the peer's `seen_operations` via
`MempoolBroadcastDone`; consequently two broadcasts — with any mempool
actions in between — send a given hash to a given peer at most once. -/
theorem claim_C4_broadcast (opHash : Operation → Option OpHash)
    (blockHash : Header → Option BlockHashId) :
    (∀ (args : BroadcastArgs) (addrs : List Address) (s : MempoolState),
      addrs.Nodup →
      ∀ addr ∈ addrs, addr ∉ args.address_exceptions →
        ∀ p, s.peer_state.find? addr = some p →
          ({ address := addr, head_state := args.head_state,
             known_valid := args.known_valid.filter
               (fun h => !(p.seen_operations.contains h)),
             pending := args.pending.filter
               (fun h => !(p.seen_operations.contains h)) } : SentMessage)
            ∈ (mempoolBroadcastEffect opHash blockHash false s args addrs).2)
    ∧ (∀ (args : BroadcastArgs) (addrs : List Address) (s : MempoolState),
        addrs.Nodup →
        ∀ msg ∈ (mempoolBroadcastEffect opHash blockHash false s args addrs).2,
          ∀ h, (h ∈ msg.known_valid ∨ h ∈ msg.pending) →
            h ∉ seenOf s msg.address
            ∧ h ∈ seenOf
                (mempoolBroadcastEffect opHash blockHash false s args addrs).1
                msg.address)
    ∧ (∀ (args1 args2 : BroadcastArgs) (acts : List MempoolAction)
        (addrs1 addrs2 : List Address) (s : MempoolState),
        addrs1.Nodup → addrs2.Nodup →
        ∀ msg1 ∈ (mempoolBroadcastEffect opHash blockHash false s args1 addrs1).2,
        ∀ msg2 ∈ (mempoolBroadcastEffect opHash blockHash false
            (mempoolReduceAll opHash blockHash false
              (mempoolBroadcastEffect opHash blockHash false s args1 addrs1).1 acts)
            args2 addrs2).2,
          msg2.address = msg1.address →
          ∀ h, (h ∈ msg1.known_valid ∨ h ∈ msg1.pending) →
            h ∉ msg2.known_valid ∧ h ∉ msg2.pending) := by
  refine ⟨?_, ?_, ?_⟩
  · intro args addrs s hnodup addr haddr hnex p hp
    exact broadcast_sends_to opHash blockHash args addrs s hnodup addr haddr hnex p hp
  · intro args addrs s hnodup msg hmsg h hmem
    obtain ⟨_, _, p, hp, hkv, hpd, _⟩ :=
      broadcast_sends_characterized opHash blockHash args addrs s hnodup msg hmsg
    constructor
    · intro hseen
      unfold seenOf at hseen
      rw [hp] at hseen
      rcases hmem with hin | hin
      · rw [hkv] at hin
        have hfalse := (List.mem_filter.mp hin).2
        simp only [Bool.not_eq_true', NSet.contains] at hfalse
        exact absurd hseen (by simpa using hfalse)
      · rw [hpd] at hin
        have hfalse := (List.mem_filter.mp hin).2
        simp only [Bool.not_eq_true', NSet.contains] at hfalse
        exact absurd hseen (by simpa using hfalse)
    · exact broadcast_seen_added opHash blockHash args addrs s msg hmsg hmem
  · intro args1 args2 acts addrs1 addrs2 s hn1 hn2 msg1 hmsg1 msg2 hmsg2 haddr h hmem
    have hseen1 : h ∈ seenOf
        (mempoolBroadcastEffect opHash blockHash false s args1 addrs1).1
        msg1.address :=
      broadcast_seen_added opHash blockHash args1 addrs1 s msg1 hmsg1 hmem
    have hseen2 : h ∈ seenOf
        (mempoolReduceAll opHash blockHash false
          (mempoolBroadcastEffect opHash blockHash false s args1 addrs1).1 acts)
        msg1.address :=
      seenOf_mempoolReduceAll_mono _ _ _ _ _ _ hseen1
    obtain ⟨_, _, p, hp, hkv, hpd, _⟩ :=
      broadcast_sends_characterized opHash blockHash args2 addrs2 _ hn2 msg2 hmsg2
    rw [haddr] at hp
    have hpseen : h ∈ p.seen_operations := by
      unfold seenOf at hseen2
      rw [hp] at hseen2
      exact hseen2
    constructor
    · intro hin
      rw [hkv] at hin
      have hfalse := (List.mem_filter.mp hin).2
      simp only [Bool.not_eq_true', NSet.contains] at hfalse
      exact absurd hpseen (by simpa using hfalse)
    · intro hin
      rw [hpd] at hin
      have hfalse := (List.mem_filter.mp hin).2
      simp only [Bool.not_eq_true', NSet.contains] at hfalse
      exact absurd hpseen (by simpa using hfalse)

/-- Witness for C4 at a concrete input: one connected peer `7` that has
already seen hash `2`; the broadcast of `[1, 2]` sends it exactly `[1]`. -/
theorem claim_C4_witness :
    ({ address := 7, head_state := ⟨0, ⟨1, 0, 0⟩, 11⟩,
       known_valid := [1], pending := [] } : SentMessage)
      ∈ (mempoolBroadcastEffect (fun o => some o) (fun _ => none) false
          { MempoolState.initial with
              peer_state := [(7, ⟨[], [], [2]⟩)] }
          { address_exceptions := [], head_state := ⟨0, ⟨1, 0, 0⟩, 11⟩,
            known_valid := [1, 2], pending := [] } [7]).2 := by
  have hmem := (claim_C4_broadcast (fun o => some o) (fun _ => none)).1
    { address_exceptions := [], head_state := ⟨0, ⟨1, 0, 0⟩, 11⟩,
      known_valid := [1, 2], pending := [] }
    [7]
    { MempoolState.initial with peer_state := [(7, ⟨[], [], [2]⟩)] }
    (by decide) 7 (by decide) (by decide) ⟨[], [], [2]⟩ rfl
  simpa using hmem

/-- C3 counterexample: the bucket-exclusivity invariant is violated by a
reachable action sequence — inject operation `7`, have the prechecker
apply it (it moves to `validated_operations.ops`), then receive the same
operation's content again from a peer: the reducer re-inserts hash `7`
into `pending_operations` while it is still in `ops`. -/
theorem claim_C3_counterexample :
    ¬ ExclusiveBuckets (mempoolReduceAll (fun o => some o) (fun _ => none) false
        MempoolState.initial
        [.mempoolOperationInject 7 7 1,
          .precheckerResponseApplied 7,
          .mempoolOperationRecvDone 0 7]) := by
  intro hex
  exact (hex 7).1 (by decide)

/-- C3 (amended): every classification step moves the classified hash
out of `pending_operations` and into exactly one validated bucket, and
the bucket-exclusivity invariant I1 (each hash in at most one of
`pending_operations`, `validated_operations.ops`, `refused_ops`) is
preserved by every reducer action that does not re-introduce an
already-validated operation via `MempoolOperationRecvDone` or
`MempoolOperationInject` (those two arms insert into
`pending_operations` unconditionally). -/
theorem claim_C3_bucket_exclusivity :
    (∀ (opHash : Operation → Option OpHash)
        (blockHash : Header → Option BlockHashId) (disable_mempool : Bool)
        (s : MempoolState) (a : MempoolAction),
      ExclusiveBuckets s → NoReintroduction opHash s a →
        ExclusiveBuckets (mempoolReducer opHash blockHash disable_mempool s a))
    ∧ (∀ (s : MempoolState) (v : OpHash),
        (validatedAppliedStep s v).pending_operations.find? v = none
        ∧ ∀ op, s.pending_operations.find? v = some op →
            (validatedAppliedStep s v).validated_operations.ops.find? v = some op
            ∧ (validatedAppliedStep s v).validated_operations.refused_ops.find? v
                = s.validated_operations.refused_ops.find? v)
    ∧ (∀ (s : MempoolState) (v : OpHash),
        (validatedRefusedStep s v).pending_operations.find? v = none
        ∧ ∀ op, s.pending_operations.find? v = some op →
            (validatedRefusedStep s v).validated_operations.refused_ops.find? v = some op
            ∧ (validatedRefusedStep s v).validated_operations.ops.find? v
                = s.validated_operations.ops.find? v)
    ∧ (∀ (s : MempoolState) (v : OpHash),
        (validatedBranchRefusedStep s v).pending_operations.find? v = none
        ∧ ∀ op, s.pending_operations.find? v = some op →
            (validatedBranchRefusedStep s v).validated_operations.ops.find? v = some op
            ∧ (validatedBranchRefusedStep s v).validated_operations.refused_ops.find? v
                = s.validated_operations.refused_ops.find? v)
    ∧ (∀ (s : MempoolState) (v : OpHash),
        (validatedBranchDelayedStep s v).pending_operations.find? v = none
        ∧ ∀ op, s.pending_operations.find? v = some op →
            (validatedBranchDelayedStep s v).validated_operations.ops.find? v = some op
            ∧ (validatedBranchDelayedStep s v).validated_operations.refused_ops.find? v
                = s.validated_operations.refused_ops.find? v)
    ∧ (∀ (s : MempoolState) (v : OpHash),
        (precheckerAppliedStep s v).pending_operations.find? v = none
        ∧ ∀ op, s.pending_operations.find? v = some op →
            (precheckerAppliedStep s v).validated_operations.ops.find? v = some op
            ∧ (precheckerAppliedStep s v).validated_operations.refused_ops.find? v
                = s.validated_operations.refused_ops.find? v)
    ∧ (∀ (s : MempoolState) (v : OpHash),
        (precheckerRefusedStep s v).pending_operations.find? v = none
        ∧ ∀ op, s.pending_operations.find? v = some op →
            (precheckerRefusedStep s v).validated_operations.refused_ops.find? v = some op
            ∧ (precheckerRefusedStep s v).validated_operations.ops.find? v
                = s.validated_operations.ops.find? v) := by
  refine ⟨exclusive_mempoolReducer, ?_, ?_, ?_, ?_, ?_, ?_⟩ <;>
    intro s v <;>
    [obtain ⟨e1, e2, e3⟩ := validatedAppliedStep_maps s v v;
      obtain ⟨e1, e2, e3⟩ := validatedRefusedStep_maps s v v;
      obtain ⟨e1, e2, e3⟩ := validatedBranchRefusedStep_maps s v v;
      obtain ⟨e1, e2, e3⟩ := validatedBranchDelayedStep_maps s v v;
      obtain ⟨e1, e2, e3⟩ := precheckerAppliedStep_maps s v v;
      obtain ⟨e1, e2, e3⟩ := precheckerRefusedStep_maps s v v] <;>
    refine ⟨by rw [e1]; simp, ?_⟩ <;>
    intro op hop <;>
    exact ⟨by rw [e2]; simp [hop], by rw [e3]⟩

/-- Witness for C3 at a concrete input. -/
theorem claim_C3_witness :
    ExclusiveBuckets (mempoolReducer (fun o => some o) (fun _ => none) false
      MempoolState.initial (.mempoolOperationInject 7 7 1))
    ∧ (validatedAppliedStep
        { MempoolState.initial with pending_operations := [(5, 9)] }
        5).pending_operations.find? 5 = none
    ∧ (validatedAppliedStep
        { MempoolState.initial with pending_operations := [(5, 9)] }
        5).validated_operations.ops.find? 5 = some 9 :=
  ⟨claim_C3_bucket_exclusivity.1 (fun o => some o) (fun _ => none) false
      MempoolState.initial (.mempoolOperationInject 7 7 1)
      exclusiveBuckets_initial ⟨rfl, rfl⟩,
    (claim_C3_bucket_exclusivity.2.1
      { MempoolState.initial with pending_operations := [(5, 9)] } 5).1,
    ((claim_C3_bucket_exclusivity.2.1
      { MempoolState.initial with pending_operations := [(5, 9)] } 5).2 9 rfl).1⟩

/-! ## Binary message hashing (`tezos/messages/src/p2p/binary_message.rs`)
and the prechecker key (`prechecker_effects.rs`) -/

/-- A binary message as read from or written to the wire: the side-car
byte cache (filled by `from_bytes`) and the result of re-encoding with
`binary_writer::write` (which can fail). -/
structure BinMessage where
  cache : Option (List Nat)
  encoded : Except Unit (List Nat)

/-- `BinaryMessage::as_bytes`: return the cached wire bytes when
present, otherwise re-encode. -/
def BinMessage.as_bytes (m : BinMessage) : Except Unit (List Nat) :=
  match m.cache with
  | some data => .ok data
  | none => m.encoded

/-- `HashTrait::try_from_bytes` for a 32-byte hash type (the
`try_into`/`try_from_bytes` conversions used by both pipelines):
succeeds exactly on 32 bytes. -/
def hashTryFrom (bytes : List Nat) : Except Unit (List Nat) :=
  if bytes.length = 32 then .ok bytes else .error ()

/-- `MessageHash::message_typed_hash::<H>` — serialize, `blake2b`
digest, convert.  `digest` is the external `blake2b::digest_256`. -/
def message_typed_hash (digest : List Nat → Except Unit (List Nat))
    (m : BinMessage) : Except Unit (List Nat) :=
  match m.as_bytes with
  | .error e => .error e
  | .ok bytes =>
    match digest bytes with
    | .error e => .error e
    | .ok dg => hashTryFrom dg

/-- The `PrecheckerPrecheckOperationRequest` arm of `prechecker_effects`
(lines 70–99): compute the operation's binary encoding, its
`blake2b::digest_256` hash, and build the `Key`; any failure short
circuits into an error response.  On success it returns the key
together with the binary encoding passed on to
`PrecheckerPrecheckOperationInitAction`. -/
def precheckerRequestKey (digest : List Nat → Except Unit (List Nat))
    (operation : BinMessage) : Except Unit (List Nat × List Nat) :=
  match operation.as_bytes with
  | .error err => .error err
  | .ok binary_encoding =>
    match digest binary_encoding with
    | .error err => .error err
    | .ok hash =>
      match hashTryFrom hash with
      | .error err => .error err
      | .ok key => .ok (key, binary_encoding)

/-- C9: the prechecker entry key is exactly the operation's
`message_typed_hash`, i.e. `blake2b_256` of the operation's binary
encoding (converted to a 32-byte typed hash). -/
theorem claim_C9_key_is_blake2b (digest : List Nat → Except Unit (List Nat))
    (operation : BinMessage) :
    ((precheckerRequestKey digest operation).map Prod.fst
        = message_typed_hash digest operation)
    ∧ (∀ bytes, operation.as_bytes = .ok bytes →
        message_typed_hash digest operation
          = (match digest bytes with
              | .error e => .error e
              | .ok dg => hashTryFrom dg)) := by
  constructor
  · unfold precheckerRequestKey message_typed_hash
    rcases operation.as_bytes with e | bytes
    · rfl
    · dsimp only
      rcases digest bytes with e | dg
      · rfl
      · dsimp only
        unfold hashTryFrom
        by_cases hl : dg.length = 32 <;> simp [hl, Except.map]
  · intro bytes hbytes
    unfold message_typed_hash
    rw [hbytes]

/-- Witness for C9 at a concrete input. -/
theorem claim_C9_witness :
    (⟨some [1, 2], .error ()⟩ : BinMessage).as_bytes = .ok [1, 2]
    ∧ message_typed_hash (fun _ => .ok (List.replicate 32 0))
        ⟨some [1, 2], .error ()⟩
      = (match ((fun _ => .ok (List.replicate 32 0)) :
              List Nat → Except Unit (List Nat)) [1, 2] with
          | .error e => .error e
          | .ok dg => hashTryFrom dg) :=
  ⟨rfl, (claim_C9_key_is_blake2b (fun _ => .ok (List.replicate 32 0))
      ⟨some [1, 2], .error ()⟩).2 [1, 2] rfl⟩

/-! ## Prechecker (`prechecker_reducer.rs`, `prechecker_effects.rs`) -/

/-- Decoded contents of an operation (`OperationDecodedContents`): the
branch block hash it names and its protocol-data JSON (opaque). -/
structure OperationDecodedContents where
  branch : BlockHashId
  data : Nat
deriving Repr, DecidableEq

/-- Modelled from the spec: `EndorsementValidationError` (the error enum
of the prechecker's endorsement validator, defined outside `src/`); the
spec singles out `UnsupportedPublicKey`, every other failure is carried
opaquely. -/
inductive EndorsementValidationError where
  | unsupportedPublicKey
  | otherError (code : Nat)
deriving Repr, DecidableEq

/-- `Applied { protocol_data }` returned by `validate_endorsement`. -/
structure EndorsementApplied where
  protocol_data : Nat
deriving Repr, DecidableEq

/-- `Refused { protocol_data, error }` returned by
`validate_endorsement`. -/
structure EndorsementRefused where
  protocol_data : Nat
  error : EndorsementValidationError
deriving Repr, DecidableEq

/-- `PrecheckerOperationState`. -/
inductive PrecheckerOperationState where
  | init
  | pendingContentDecoding
  | decodedContentReady (operation_decoded_contents : OperationDecodedContents)
  | pendingEndorsingRights (operation_decoded_contents : OperationDecodedContents)
  | endorsingRightsReady (operation_decoded_contents : OperationDecodedContents)
      (endorsing_rights : Nat)
  | pendingOperationPrechecking (operation_decoded_contents : OperationDecodedContents)
      (endorsing_rights : Nat)
  | applied (protocol_data : Nat)
  | refused (protocol_data : Nat) (error : EndorsementValidationError)
  | protocolNeeded
  | errorState (error : Nat)
deriving Repr, DecidableEq

/-- `PrecheckerOperation` (the `start` timestamp is bookkeeping only
and is not modelled). -/
structure PrecheckerOperation where
  operation : Nat
  operation_binary_encoding : List Nat
  state : PrecheckerOperationState
deriving Repr, DecidableEq

/-- `PrecheckerState`. -/
structure PrecheckerState where
  operations : KMap PrecheckerOperation
deriving Repr, DecidableEq

/-- The prechecker actions the validation path exercises. -/
inductive PrecheckerAction where
  | validateEndorsement (key : Nat)
  | endorsementValidationApplied (key : Nat) (protocol_data : Nat)
  | endorsementValidationRefused (key : Nat) (protocol_data : Nat)
      (error : EndorsementValidationError)
  | protocolNeeded (key : Nat) (protocol_data : Nat)
deriving Repr, DecidableEq

/-- `HashMap::entry(key).and_modify(f)`. -/
def KMap.andModify (m : KMap PrecheckerOperation) (k : Nat)
    (f : PrecheckerOperation → PrecheckerOperation) : KMap PrecheckerOperation :=
  match m.find? k with
  | some v => m.insert k (f v)
  | none => m

/-- `prechecker_reducer` (the arms of the validation path). -/
def precheckerReducer (st : PrecheckerState) (a : PrecheckerAction) : PrecheckerState :=
  match a with
  | .validateEndorsement key =>
    { operations := st.operations.andModify key fun op =>
        match op.state with
        | .endorsingRightsReady contents rights =>
          { op with state := .pendingOperationPrechecking contents rights }
        | _ => op }
  | .endorsementValidationApplied key protocol_data =>
    { operations := st.operations.andModify key fun op =>
        match op.state with
        | .pendingOperationPrechecking _ _ => { op with state := .applied protocol_data }
        | _ => op }
  | .endorsementValidationRefused key protocol_data error =>
    { operations := st.operations.andModify key fun op =>
        match op.state with
        | .pendingOperationPrechecking _ _ =>
          { op with state := .refused protocol_data error }
        | _ => op }
  | .protocolNeeded key _ =>
    { operations := st.operations.andModify key fun op =>
        match op.state with
        | .decodedContentReady _ => { op with state := .protocolNeeded }
        | .pendingOperationPrechecking _ _ => { op with state := .protocolNeeded }
        | _ => op }

/-- The responses the prechecker feeds back to the mempool
(`PrecheckerPrecheckOperationResponseAction::{valid, reject,
prevalidate}`); `reject` carries the protocol data and the error (the
source serializes the error to JSON for transport). -/
inductive PrecheckerResponse where
  | valid (operation : Nat) (protocol_data : Nat)
  | reject (operation : Nat) (protocol_data : Nat)
      (error : EndorsementValidationError)
  | prevalidate (operation : Nat) (protocol_data : Nat)
deriving Repr, DecidableEq

/-- `PrecheckerEndorsementValidationApplied` effect arm. -/
def precheckerAppliedEffect (st : PrecheckerState) (key : Nat)
    (protocol_data : Nat) : List PrecheckerResponse :=
  match (st.operations.find? key).map PrecheckerOperation.state with
  | some (.applied _) => [.valid key protocol_data]
  | _ => []

/-- `PrecheckerEndorsementValidationRefused` effect arm (reads the
protocol data and error back out of the stored state). -/
def precheckerRefusedEffect (st : PrecheckerState) (key : Nat) :
    List PrecheckerResponse :=
  match st.operations.find? key with
  | some { state := .refused protocol_data error, .. } =>
    [.reject key protocol_data error]
  | _ => []

/-- `PrecheckerProtocolNeeded` effect arm. -/
def precheckerProtocolNeededEffect (st : PrecheckerState) (key : Nat)
    (protocol_data : Nat) : List PrecheckerResponse :=
  match (st.operations.find? key).map PrecheckerOperation.state with
  | some .protocolNeeded => [.prevalidate key protocol_data]
  | _ => []

/-- The `PrecheckerValidateEndorsement` effect arm followed by the
dispatch chain it triggers (each dispatched action is reduced and its
own effect run).  `validator` embeds the external
`EndorsementValidator::validate_endorsement(binary_encoding, chain_id,
branch, endorsing_rights)`. -/
def processValidateEndorsement
    (validator : List Nat → Nat → BlockHashId → Nat →
      Except EndorsementRefused EndorsementApplied)
    (chain_id : Nat) (st : PrecheckerState) (key : Nat) :
    PrecheckerState × List PrecheckerResponse :=
  match st.operations.find? key with
  | some op =>
    match op.state with
    | .pendingOperationPrechecking operation_decoded_contents endorsing_rights =>
      match validator op.operation_binary_encoding chain_id
          operation_decoded_contents.branch endorsing_rights with
      | .ok a =>
        let st1 := precheckerReducer st (.endorsementValidationApplied key a.protocol_data)
        (st1, precheckerAppliedEffect st1 key a.protocol_data)
      | .error r =>
        match r.error with
        | .unsupportedPublicKey =>
          let st1 := precheckerReducer st (.protocolNeeded key r.protocol_data)
          (st1, precheckerProtocolNeededEffect st1 key r.protocol_data)
        | .otherError code =>
          let st1 := precheckerReducer st
            (.endorsementValidationRefused key r.protocol_data
              (.otherError code))
          (st1, precheckerRefusedEffect st1 key)
    | _ => (st, [])
  | none => (st, [])

/-- C7: for an endorsement in `PendingOperationPrechecking`, the
validation outcome is dispatched as: an `Applied` response with the
protocol data when `validate_endorsement` succeeds; a `ProtocolNeeded`
transition with a `Prevalidate` response (deferring to the protocol
runner) when it fails with exactly `UnsupportedPublicKey`; and a
`Refused` response carrying the protocol data and the error for every
other failure. -/
theorem claim_C7_endorsement_outcomes
    (validator : List Nat → Nat → BlockHashId → Nat →
      Except EndorsementRefused EndorsementApplied)
    (chain_id : Nat) (st : PrecheckerState) (key : Nat)
    (op : PrecheckerOperation) (contents : OperationDecodedContents) (rights : Nat)
    (hop : st.operations.find? key = some op)
    (hstate : op.state = .pendingOperationPrechecking contents rights) :
    (∀ a, validator op.operation_binary_encoding chain_id contents.branch rights
        = .ok a →
      processValidateEndorsement validator chain_id st key
        = (⟨st.operations.insert key { op with state := .applied a.protocol_data }⟩,
            [.valid key a.protocol_data]))
    ∧ (∀ pd, validator op.operation_binary_encoding chain_id contents.branch rights
        = .error ⟨pd, .unsupportedPublicKey⟩ →
      processValidateEndorsement validator chain_id st key
        = (⟨st.operations.insert key { op with state := .protocolNeeded }⟩,
            [.prevalidate key pd]))
    ∧ (∀ pd code, validator op.operation_binary_encoding chain_id contents.branch rights
        = .error ⟨pd, .otherError code⟩ →
      processValidateEndorsement validator chain_id st key
        = (⟨st.operations.insert key
              { op with state := .refused pd (.otherError code) }⟩,
            [.reject key pd (.otherError code)])) := by
  refine ⟨?_, ?_, ?_⟩
  · intro a hv
    unfold processValidateEndorsement
    rw [hop]
    dsimp only
    rw [hstate]
    dsimp only
    rw [hv]
    simp [precheckerReducer, KMap.andModify, hop, hstate,
      precheckerAppliedEffect, KMap.find?_insert_self]
  · intro pd hv
    unfold processValidateEndorsement
    rw [hop]
    dsimp only
    rw [hstate]
    dsimp only
    rw [hv]
    simp [precheckerReducer, KMap.andModify, hop, hstate,
      precheckerProtocolNeededEffect, KMap.find?_insert_self]
  · intro pd code hv
    unfold processValidateEndorsement
    rw [hop]
    dsimp only
    rw [hstate]
    dsimp only
    rw [hv]
    simp [precheckerReducer, KMap.andModify, hop, hstate,
      precheckerRefusedEffect, KMap.find?_insert_self]

/-- Witness for C7 at a concrete input: a one-entry prechecker state in
`PendingOperationPrechecking` and a validator that refuses with an
unsupported public key. -/
theorem claim_C7_witness :
    processValidateEndorsement
        (fun _ _ _ _ => .error ⟨42, .unsupportedPublicKey⟩) 0
        ⟨[(9, ⟨9, [0], .pendingOperationPrechecking ⟨5, 42⟩ 3⟩)]⟩ 9
      = (⟨KMap.insert [(9, ⟨9, [0], .pendingOperationPrechecking ⟨5, 42⟩ 3⟩)] 9
            ⟨9, [0], .protocolNeeded⟩⟩,
          [.prevalidate 9 42]) :=
  (claim_C7_endorsement_outcomes
      (fun _ _ _ _ => .error ⟨42, .unsupportedPublicKey⟩) 0
      ⟨[(9, ⟨9, [0], .pendingOperationPrechecking ⟨5, 42⟩ 3⟩)]⟩ 9
      ⟨9, [0], .pendingOperationPrechecking ⟨5, 42⟩ 3⟩ ⟨5, 42⟩ 3
      rfl rfl).2.1 42 rfl

/-! ## Peer message reader (`peer_message_read_effects.rs`) and the
mempool's handler of the same `PeerMessageReadSuccess` action
(`mempool_effects.rs`) -/

/-- The incoming peer messages whose handling the chain-id check
concerns (`GetCurrentBranch`, `CurrentHead`, `CurrentBranch`); other
message kinds are out of scope here. -/
inductive PeerMsg where
  | getCurrentBranch (chain_id : Nat)
  | currentHead (chain_id : Nat) (current_block_header : Header)
      (mempool_pending mempool_known_valid : List OpHash)
  | currentBranch (chain_id : Nat) (branch_tip : Header) (history : List Nat)
  | otherMsg
deriving Repr, DecidableEq

/-- The follow-up actions those handlers can dispatch. -/
inductive ReadDispatched where
  | peerRemoteRequestsCurrentBranchGetInit (address : Address)
  | peerCurrentHeadUpdate (address : Address) (block_hash : BlockHashId)
  | bootstrapPeerCurrentBranchReceived (address : Address)
  | mempoolRecvDone (address : Address) (block_hash : BlockHashId)
      (pending known_valid : List OpHash)
deriving Repr, DecidableEq

/-- `update_peer_current_head`: hash the header and dispatch
`PeerCurrentHeadUpdateAction`; a hashing failure dispatches nothing. -/
def updatePeerCurrentHead (blockHash : Header → Option BlockHashId)
    (address : Address) (header : Header) : List ReadDispatched :=
  match blockHash header with
  | some h => [.peerCurrentHeadUpdate address h]
  | none => []

/-- The `PeerMessageReadSuccess` arm of `peer_message_read_effects` for
the three chain-id-checked message kinds: a foreign chain id returns
with nothing dispatched. -/
def readerDispatch (cfg_chain_id : Nat) (blockHash : Header → Option BlockHashId)
    (address : Address) (msg : PeerMsg) : List ReadDispatched :=
  match msg with
  | .getCurrentBranch chain_id =>
    if chain_id ≠ cfg_chain_id then []
    else [.peerRemoteRequestsCurrentBranchGetInit address]
  | .currentHead chain_id header _ _ =>
    if chain_id ≠ cfg_chain_id then []
    else updatePeerCurrentHead blockHash address header
  | .currentBranch chain_id branch_tip _ =>
    if chain_id ≠ cfg_chain_id then []
    else updatePeerCurrentHead blockHash address branch_tip
      ++ [.bootstrapPeerCurrentBranchReceived address]
  | .otherMsg => []

/-- The `PeerMessageReadSuccess` arm of `mempool_effects`: a
`CurrentHead` message — with **no chain-id check** — hashes the header
(`message_typed_hash().unwrap()`, a hashing failure panics in the
source and is embedded as no dispatch) and dispatches
`MempoolRecvDoneAction`; the other kinds here dispatch nothing. -/
def mempoolReadDispatch (blockHash : Header → Option BlockHashId)
    (address : Address) (msg : PeerMsg) : List ReadDispatched :=
  match msg with
  | .currentHead _ header pending known_valid =>
    match blockHash header with
    | some h => [.mempoolRecvDone address h pending known_valid]
    | none => []
  | _ => []

/-- Modelled from the spec: the root effects composition (not under
`src/`) runs every subsystem's effect handler on each action (§4.6,
"Effects are handlers keyed by action kind"; §2 data flow), so a
`PeerMessageReadSuccess` action is seen by both the reader effects and
the mempool effects. -/
def combinedReadDispatch (cfg_chain_id : Nat)
    (blockHash : Header → Option BlockHashId) (address : Address)
    (msg : PeerMsg) : List ReadDispatched :=
  readerDispatch cfg_chain_id blockHash address msg
    ++ mempoolReadDispatch blockHash address msg

/-- C8 counterexample: a `CurrentHead` message whose chain id (1)
differs from the configured chain id (0) is *not* dropped silently —
the mempool effect still dispatches `MempoolRecvDone` for it. -/
theorem claim_C8_counterexample :
    combinedReadDispatch 0 (fun hd => some hd.body) 3
        (.currentHead 1 ⟨7, 0, 11⟩ [5] [4])
      = [.mempoolRecvDone 3 11 [5] [4]] := by
  decide

/-- C8 (amended): a `GetCurrentBranch` or `CurrentBranch` message with
a foreign chain id is dropped silently — no action at all is
dispatched; a `CurrentHead` message with a foreign chain id triggers no
bootstrap or peer-current-head action from the reader, but the mempool
effect (which performs no chain-id check) still dispatches
`MempoolRecvDone` for it. -/
theorem claim_C8_chain_id_check (cfg_chain_id chain_id : Nat)
    (blockHash : Header → Option BlockHashId) (address : Address)
    (hne : chain_id ≠ cfg_chain_id) :
    (∀ header pending known_valid,
      combinedReadDispatch cfg_chain_id blockHash address
          (.getCurrentBranch chain_id) = []
      ∧ combinedReadDispatch cfg_chain_id blockHash address
          (.currentBranch chain_id header pending) = []
      ∧ readerDispatch cfg_chain_id blockHash address
          (.currentHead chain_id header pending known_valid) = []
      ∧ combinedReadDispatch cfg_chain_id blockHash address
          (.currentHead chain_id header pending known_valid)
        = (match blockHash header with
            | some h => [.mempoolRecvDone address h pending known_valid]
            | none => [])) := by
  intro header pending known_valid
  refine ⟨?_, ?_, ?_, ?_⟩ <;>
    simp [combinedReadDispatch, readerDispatch, mempoolReadDispatch, hne]

/-- Witness for C8 at a concrete input. -/
theorem claim_C8_witness :
    combinedReadDispatch 0 (fun hd => some hd.body) 3 (.getCurrentBranch 1) = []
    ∧ combinedReadDispatch 0 (fun hd => some hd.body) 3
        (.currentHead 1 ⟨7, 0, 11⟩ [5] [4])
      = (match (fun (hd : Header) => some hd.body) ⟨7, 0, 11⟩ with
          | some h => [ReadDispatched.mempoolRecvDone 3 h [5] [4]]
          | none => []) :=
  ⟨(claim_C8_chain_id_check 0 1 (fun hd => some hd.body) 3 (by decide)
      ⟨7, 0, 11⟩ [5] [4]).1,
    (claim_C8_chain_id_check 0 1 (fun hd => some hd.body) 3 (by decide)
      ⟨7, 0, 11⟩ [5] [4]).2.2.2⟩

/-! ## Bootstrap (`bootstrap/bootstrap_reducer.rs`) -/

/-- One downloaded header record inside a `PeerIntervalState`:
`(Level, BlockHash, validation_pass, OperationListListHash)`. -/
structure DownloadedHeader where
  level : Int
  block_hash : Nat
  validation_pass : Nat
  operations_hash : Nat
deriving Repr, DecidableEq

/-- `PeerIntervalState`. -/
structure PeerIntervalState where
  peer : Address
  downloaded : List DownloadedHeader
  current : Option (Int × Nat)
deriving Repr, DecidableEq

/-- `BlockWithDownloadedHeader`, the element type of `main_chain`. -/
structure BlockWithDownloadedHeader where
  peer : Address
  block_hash : Nat
  validation_pass : Nat
  operations_hash : Nat
deriving Repr, DecidableEq

/-- A `CurrentBranch` as consumed by interval construction: the tip's
level, the tip's hash as computed by `message_typed_hash` (`Err`
embeds as `.error`), and the sparse ancestor history. -/
structure PeerBranch where
  level : Int
  tipHash : Except Unit Nat
  history : List Nat
deriving Repr

/-- The comparator `cmp_levels` is on `Option<Level>` with Rust's
`Option` ordering (`None < Some`). -/
def optLevelLe : Option Int → Option Int → Bool
  | none, _ => true
  | some _, none => false
  | some x, some y => decide (x ≤ y)

/-- `current.level` key of an interval. -/
def intervalLevelKey (i : PeerIntervalState) : Option Int :=
  i.current.map Prod.fst

/-- `cmp_levels(a, b).is_le()` as used by `sort_by`. -/
def cmpLevelsLe (a b : PeerIntervalState) : Bool :=
  optLevelLe (intervalLevelKey a) (intervalLevelKey b)

/-- `Vec::dedup_by(|a, b| cmp_levels(a, b).is_eq())`, comparing each
element against the last retained one: `kept` is the last retained
element. -/
def dedupByLevelAux (kept : PeerIntervalState) :
    List PeerIntervalState → List PeerIntervalState
  | [] => []
  | b :: rest =>
    if intervalLevelKey b = intervalLevelKey kept then dedupByLevelAux kept rest
    else b :: dedupByLevelAux b rest

/-- `Vec::dedup_by` on the whole vector: drop every element whose
`current.level` equals the previously retained element\'s, keeping the
first of each run. -/
def dedupByLevel : List PeerIntervalState → List PeerIntervalState
  | [] => []
  | a :: rest => a :: dedupByLevelAux a rest

/-- The per-history walk of interval construction: starting below the
branch tip, each history hash is assigned the level obtained by
subtracting the next seeded step; the walk stops (`break`) at the first
level at or below the current head.  `stepF i` is the value of the
`i`-th `step.next_step()` call. -/
def historyEntries (stepF : Nat → Int) (head_level : Int) :
    Nat → Int → List Nat → List (Int × Nat)
  | _, _, [] => []
  | i, level, block_hash :: rest =>
    let level' := level - stepF i
    if level' ≤ head_level then []
    else (level', block_hash) :: historyEntries stepF head_level (i + 1) level' rest

/-- Interval construction of `BootstrapPeersBlockHeadersGetPending`
(`bootstrap_reducer.rs:104-161`).  `pkhOf` embeds
`state.peer_public_key_hash` and `stepStream pkh block_hash` the
successive `next_step()` values of `Step::init(Seed::new(pkh, own_pkh),
block_hash)` (the seeded-step PRNG is external crypto). -/
def buildPeerIntervals (pkhOf : Address → Option Nat)
    (stepStream : Nat → Nat → Nat → Int) (head_level : Int)
    (main_block : Int × Nat) (branches : List (Address × PeerBranch)) :
    List PeerIntervalState :=
  let raw := branches.foldl
    (fun acc pb =>
      match pkhOf pb.1 with
      | none => acc
      | some peer_pkh =>
        let seed_block_hash : Except Unit Nat :=
          if main_block.1 = pb.2.level then .ok main_block.2 else pb.2.tipHash
        match seed_block_hash with
        | .error _ => acc
        | .ok block_hash =>
          let stepF := stepStream peer_pkh block_hash
          let tip_intervals : List PeerIntervalState :=
            if pb.2.level = main_block.1 then
              [{ peer := pb.1, downloaded := [],
                 current := some (pb.2.level, main_block.2) }]
            else []
          acc ++ tip_intervals
            ++ (historyEntries stepF head_level 0 pb.2.level pb.2.history).map
              (fun lh => { peer := pb.1, downloaded := [], current := some lh }))
    []
  dedupByLevel (raw.mergeSort cmpLevelsLe)

theorem optLevelLe_trans : ∀ a b c, optLevelLe a b = true → optLevelLe b c = true →
    optLevelLe a c = true := by
  intro a b c hab hbc
  rcases a with _ | x <;> rcases b with _ | y <;> rcases c with _ | z <;>
    simp [optLevelLe] at * <;> omega

theorem optLevelLe_total : ∀ a b, (optLevelLe a b || optLevelLe b a) = true := by
  intro a b
  rcases a with _ | x <;> rcases b with _ | y <;> simp [optLevelLe] <;> omega

theorem cmpLevelsLe_trans : ∀ a b c : PeerIntervalState,
    cmpLevelsLe a b = true → cmpLevelsLe b c = true → cmpLevelsLe a c = true :=
  fun a b c => optLevelLe_trans _ _ _

theorem cmpLevelsLe_total : ∀ a b : PeerIntervalState,
    (cmpLevelsLe a b || cmpLevelsLe b a) = true :=
  fun a b => optLevelLe_total _ _

theorem mem_dedupByLevelAux : ∀ (l : List PeerIntervalState)
    (kept x : PeerIntervalState), x ∈ dedupByLevelAux kept l → x ∈ l := by
  intro l
  induction l with
  | nil => intro kept x hx; cases hx
  | cons b rest ih =>
    intro kept x hx
    unfold dedupByLevelAux at hx
    by_cases hkey : intervalLevelKey b = intervalLevelKey kept
    · rw [if_pos hkey] at hx
      exact List.mem_cons.mpr (Or.inr (ih kept x hx))
    · rw [if_neg hkey] at hx
      rcases List.mem_cons.mp hx with rfl | hx'
      · exact List.mem_cons_self _ _
      · exact List.mem_cons.mpr (Or.inr (ih b x hx'))

theorem mem_dedupByLevel : ∀ (l : List PeerIntervalState) (x : PeerIntervalState),
    x ∈ dedupByLevel l → x ∈ l := by
  intro l x hx
  rcases l with _ | ⟨a, rest⟩
  · cases hx
  · rcases List.mem_cons.mp hx with rfl | hx'
    · exact List.mem_cons_self _ _
    · exact List.mem_cons.mpr (Or.inr (mem_dedupByLevelAux rest a x hx'))

theorem dedupByLevelAux_chain' :
    ∀ (l : List PeerIntervalState) (kept : PeerIntervalState),
      (kept :: l).Pairwise (fun a b => cmpLevelsLe a b = true) →
      (kept :: dedupByLevelAux kept l).Chain'
        (fun a b => cmpLevelsLe a b = true ∧ intervalLevelKey a ≠ intervalLevelKey b) := by
  intro l
  induction l with
  | nil => intro kept _; exact List.chain'_singleton kept
  | cons b rest ih =>
    intro kept hp
    rcases List.pairwise_cons.mp hp with ⟨hk, hbp⟩
    rcases List.pairwise_cons.mp hbp with ⟨hb, hrest⟩
    unfold dedupByLevelAux
    by_cases hkey : intervalLevelKey b = intervalLevelKey kept
    · rw [if_pos hkey]
      apply ih kept
      exact List.pairwise_cons.mpr
        ⟨fun y hy => hk y (List.mem_cons.mpr (Or.inr hy)), hrest⟩
    · rw [if_neg hkey]
      apply List.chain'_cons.mpr
      refine ⟨⟨hk b (List.mem_cons_self _ _), fun he => hkey he.symm⟩, ?_⟩
      exact ih b (List.pairwise_cons.mpr ⟨hb, hrest⟩)

theorem dedupByLevel_chain' :
    ∀ l : List PeerIntervalState,
      l.Pairwise (fun a b => cmpLevelsLe a b = true) →
      (dedupByLevel l).Chain'
        (fun a b => cmpLevelsLe a b = true ∧ intervalLevelKey a ≠ intervalLevelKey b) := by
  intro l hp
  rcases l with _ | ⟨a, rest⟩
  · exact List.chain'_nil
  · exact dedupByLevelAux_chain' rest a hp

theorem historyEntries_above_head (stepF : Nat → Int) (head_level : Int) :
    ∀ (hist : List Nat) (i : Nat) (level : Int) (e : Int × Nat),
      e ∈ historyEntries stepF head_level i level hist → head_level < e.1 := by
  intro hist
  induction hist with
  | nil => intro i level e he; cases he
  | cons bh rest ih =>
    intro i level e he
    unfold historyEntries at he
    dsimp only at he
    by_cases hbr : level - stepF i ≤ head_level
    · rw [if_pos hbr] at he; cases he
    · rw [if_neg hbr] at he
      rcases List.mem_cons.mp he with rfl | he'
      · omega
      · exact ih (i + 1) (level - stepF i) e he'

theorem buildPeerIntervals_levels (pkhOf : Address → Option Nat)
    (stepStream : Nat → Nat → Nat → Int) (head_level : Int)
    (main_block : Int × Nat) (branches : List (Address × PeerBranch)) :
    ∀ itv ∈ buildPeerIntervals pkhOf stepStream head_level main_block branches,
      ∀ lv hsh, itv.current = some (lv, hsh) →
        head_level < lv ∨ (lv = main_block.1 ∧ hsh = main_block.2) := by
  have key : ∀ (bs : List (Address × PeerBranch)) (acc : List PeerIntervalState),
      (∀ itv ∈ acc, ∀ lv hsh, itv.current = some (lv, hsh) →
        head_level < lv ∨ (lv = main_block.1 ∧ hsh = main_block.2)) →
      ∀ itv ∈ bs.foldl
        (fun acc pb =>
          match pkhOf pb.1 with
          | none => acc
          | some peer_pkh =>
            let seed_block_hash : Except Unit Nat :=
              if main_block.1 = pb.2.level then .ok main_block.2 else pb.2.tipHash
            match seed_block_hash with
            | .error _ => acc
            | .ok block_hash =>
              let stepF := stepStream peer_pkh block_hash
              let tip_intervals : List PeerIntervalState :=
                if pb.2.level = main_block.1 then
                  [{ peer := pb.1, downloaded := [],
                     current := some (pb.2.level, main_block.2) }]
                else []
              acc ++ tip_intervals
                ++ (historyEntries stepF head_level 0 pb.2.level pb.2.history).map
                  (fun lh => { peer := pb.1, downloaded := [], current := some lh }))
        acc,
        ∀ lv hsh, itv.current = some (lv, hsh) →
          head_level < lv ∨ (lv = main_block.1 ∧ hsh = main_block.2) := by
    intro bs
    induction bs with
    | nil => intro acc hacc itv hitv; exact hacc itv hitv
    | cons pb rest ih =>
      intro acc hacc itv hitv
      rw [List.foldl_cons] at hitv
      refine ih _ ?_ itv hitv
      rcases hpkh : pkhOf pb.1 with _ | peer_pkh
      · exact hacc
      · dsimp only
        rcases hsb : (if main_block.1 = pb.2.level then (.ok main_block.2 : Except Unit Nat)
            else pb.2.tipHash) with e | block_hash
        · exact hacc
        · intro x hx lv hsh hcur
          rcases List.mem_append.mp hx with hx' | hxh
          · rcases List.mem_append.mp hx' with hxa | hxt
            · exact hacc x hxa lv hsh hcur
            · by_cases htip : pb.2.level = main_block.1
              · rw [if_pos htip] at hxt
                rcases List.mem_singleton.mp hxt with rfl
                have h2 : (pb.2.level, main_block.2) = (lv, hsh) :=
                  Option.some.inj hcur
                have hl : pb.2.level = lv := congrArg Prod.fst h2
                have hh : main_block.2 = hsh := congrArg Prod.snd h2
                exact Or.inr ⟨by omega, hh.symm⟩
              · rw [if_neg htip] at hxt
                cases hxt
          · rcases List.mem_map.mp hxh with ⟨lh, hlh, rfl⟩
            have h2 : lh = (lv, hsh) := Option.some.inj hcur
            subst h2
            exact Or.inl (historyEntries_above_head _ _ _ _ _ _ hlh)
  intro itv hitv lv hsh hcur
  unfold buildPeerIntervals at hitv
  have h1 := mem_dedupByLevel _ itv hitv
  have h2 := (List.mem_mergeSort).mp h1
  exact key branches [] (fun x hx => absurd hx (List.not_mem_nil x)) itv h2 lv hsh hcur

theorem optLevelLe_antisymm : ∀ a b, optLevelLe a b = true → optLevelLe b a = true →
    a = b := by
  intro a b hab hba
  rcases a with _ | x <;> rcases b with _ | y <;>
    simp [optLevelLe] at * <;> omega

theorem intervalStrict_trans : ∀ a b c : PeerIntervalState,
    (cmpLevelsLe a b = true ∧ intervalLevelKey a ≠ intervalLevelKey b) →
    (cmpLevelsLe b c = true ∧ intervalLevelKey b ≠ intervalLevelKey c) →
    (cmpLevelsLe a c = true ∧ intervalLevelKey a ≠ intervalLevelKey c) := by
  intro a b c ⟨hab, nab⟩ ⟨hbc, nbc⟩
  refine ⟨cmpLevelsLe_trans a b c hab hbc, ?_⟩
  intro hac
  unfold cmpLevelsLe at hab hbc
  rw [hac] at hab
  exact nbc (optLevelLe_antisymm _ _ hbc hab)

/-- C5 counterexample: the tip interval at the main block's level is
pushed without the current-head check — with the main block at level 5
and the current head at level 10, interval construction keeps a
`(5, main_block_hash)` entry strictly below the current head instead of
discarding it. -/
theorem claim_C5_counterexample :
    buildPeerIntervals (fun _ => some 0) (fun _ _ _ => 1) 10 (5, 99)
        [(1, ⟨5, .ok 99, []⟩)]
      = [{ peer := 1, downloaded := [], current := some (5, 99) }]
      ∧ (5 : Int) < 10 := by
  refine ⟨?_, by decide⟩
  simp [buildPeerIntervals, dedupByLevel, dedupByLevelAux, historyEntries]

/-- C5 (amended): the `peer_intervals` sequence constructed by
`BootstrapPeersBlockHeadersGetPending` is sorted by `current.level` in
ascending order and deduplicated on that level (invariant I3), and
every entry derived from a branch *history* at or below the current
head's level is discarded — but the tip entry at the main block's level
is pushed unconditionally, so an entry at the main block's level is
kept even when that level is below the current head. -/
theorem claim_C5_interval_construction :
    (∀ (pkhOf : Address → Option Nat) (stepStream : Nat → Nat → Nat → Int)
        (head_level : Int) (main_block : Int × Nat)
        (branches : List (Address × PeerBranch)),
      (buildPeerIntervals pkhOf stepStream head_level main_block branches).Pairwise
        (fun a b => cmpLevelsLe a b = true ∧ intervalLevelKey a ≠ intervalLevelKey b))
    ∧ (∀ (pkhOf : Address → Option Nat) (stepStream : Nat → Nat → Nat → Int)
        (head_level : Int) (main_block : Int × Nat)
        (branches : List (Address × PeerBranch)),
      ∀ itv ∈ buildPeerIntervals pkhOf stepStream head_level main_block branches,
        ∀ lv hsh, itv.current = some (lv, hsh) →
          head_level < lv ∨ (lv = main_block.1 ∧ hsh = main_block.2)) := by
  constructor
  · intro pkhOf stepStream head_level main_block branches
    haveI : IsTrans PeerIntervalState
        (fun a b => cmpLevelsLe a b = true ∧ intervalLevelKey a ≠ intervalLevelKey b) :=
      ⟨intervalStrict_trans⟩
    apply List.chain'_iff_pairwise.mp
    unfold buildPeerIntervals
    exact dedupByLevel_chain' _
      (List.sorted_mergeSort cmpLevelsLe_trans cmpLevelsLe_total _)
  · exact buildPeerIntervals_levels

/-- Witness for C5 at a concrete input: one branch at level 5 with one
history hash; the history entry lands at level 4 above the head. -/
theorem claim_C5_witness :
    (0 : Int) < 4 ∨ ((4 : Int) = ((5 : Int), (99 : Nat)).1
      ∧ (7 : Nat) = ((5 : Int), (99 : Nat)).2) :=
  claim_C5_interval_construction.2 (fun _ => some 0) (fun _ _ _ => 1) 0 (5, 99)
    [(1, ⟨5, .ok 99, [7]⟩)] ⟨1, [], some (4, 7)⟩
    (by simp [buildPeerIntervals, dedupByLevel, dedupByLevelAux, historyEntries,
      List.mergeSort, List.merge, cmpLevelsLe, optLevelLe, intervalLevelKey])
    4 7 rfl

/-- Draining one interval's `downloaded` vector into `main_chain` in
order, each element front-pushed (`push_front`); the list head is the
deque front. -/
def pushDownloaded (peer : Address) (mc : List BlockWithDownloadedHeader)
    (ds : List DownloadedHeader) : List BlockWithDownloadedHeader :=
  ds.foldl
    (fun acc d =>
      { peer := peer, block_hash := d.block_hash,
        validation_pass := d.validation_pass,
        operations_hash := d.operations_hash } :: acc)
    mc

/-- The chain-assembly loop of `BootstrapPeerBlockHeaderReceived`
(`bootstrap_reducer.rs:236-263`), on the *reversed* interval list so
that the vector's last element is the list head. -/
def drainRev (lastLevel : Int) :
    List BlockWithDownloadedHeader → List PeerIntervalState →
      List BlockWithDownloadedHeader × List PeerIntervalState
  | mc, [] => (mc, [])
  | mc, itv :: rest =>
    match hd : itv.downloaded.head? with
    | none => (mc, itv :: rest)
    | some d =>
      if d.level = lastLevel - mc.length then
        let mc' := pushDownloaded itv.peer mc itv.downloaded
        if itv.current.isNone then drainRev lastLevel mc' rest
        else drainRev lastLevel mc' ({ itv with downloaded := [] } :: rest)
      else (mc, itv :: rest)
termination_by mc ivs =>
  (ivs.length, match ivs.head? with | some i => i.downloaded.length | none => 0)
decreasing_by
  · apply Prod.Lex.left
    simp
  · apply Prod.Lex.right
    rcases hds : itv.downloaded with _ | ⟨d0, ds⟩
    · rw [hds] at hd; cases hd
    · simp [hds]

/-- The chain-assembly loop in source orientation: `peer_intervals` is
ascending by level, the loop works on its last element. -/
def drainLoop (lastLevel : Int) (mc : List BlockWithDownloadedHeader)
    (ivs : List PeerIntervalState) :
    List BlockWithDownloadedHeader × List PeerIntervalState :=
  let r := drainRev lastLevel mc ivs.reverse
  (r.1, r.2.reverse)

theorem reverse_eq_getLast_cons {α : Type} (l : List α) (x : α)
    (h : l.getLast? = some x) : l.reverse = x :: l.dropLast.reverse := by
  rcases List.eq_nil_or_concat l with rfl | ⟨l', a, rfl⟩
  · cases h
  · rw [List.concat_eq_append] at h ⊢
    rw [List.getLast?_concat] at h
    have : a = x := by injection h
    subst this
    simp

theorem drainRev_nil (lastLevel : Int) (mc : List BlockWithDownloadedHeader) :
    drainRev lastLevel mc [] = (mc, []) := by
  unfold drainRev
  rfl

theorem drainRev_cons_guard (lastLevel : Int) (mc : List BlockWithDownloadedHeader)
    (itv : PeerIntervalState) (rest : List PeerIntervalState)
    (d : DownloadedHeader) (hd : itv.downloaded.head? = some d)
    (hlvl : d.level = lastLevel - mc.length) :
    drainRev lastLevel mc (itv :: rest)
      = (if itv.current.isNone then
          drainRev lastLevel (pushDownloaded itv.peer mc itv.downloaded) rest
        else
          drainRev lastLevel (pushDownloaded itv.peer mc itv.downloaded)
            ({ itv with downloaded := [] } :: rest)) := by
  conv_lhs => unfold drainRev
  split
  · rename_i heq
    rw [heq] at hd
    cases hd
  · rename_i d' heq
    rw [heq] at hd
    have : d' = d := by injection hd
    subst this
    rw [if_pos hlvl]

theorem drainRev_cons_stop (lastLevel : Int) (mc : List BlockWithDownloadedHeader)
    (itv : PeerIntervalState) (rest : List PeerIntervalState)
    (hstop : itv.downloaded.head? = none
      ∨ ∃ d, itv.downloaded.head? = some d ∧ d.level ≠ lastLevel - mc.length) :
    drainRev lastLevel mc (itv :: rest) = (mc, itv :: rest) := by
  conv_lhs => unfold drainRev
  split
  · rfl
  · rename_i d' heq
    rcases hstop with hnone | ⟨d, hd, hne⟩
    · rw [heq] at hnone; cases hnone
    · rw [heq] at hd
      have : d' = d := by injection hd
      subst this
      rw [if_neg hne]

/-- C6: the chain-assembly loop.  As long as the last (highest) peer
interval's first downloaded header sits at level
`main_chain_last_level − main_chain.len()`, that interval's downloaded
headers are drained in order into `main_chain` by front-pushing and the
interval is removed when its `current` is `None` (kept, emptied,
otherwise); when the guard fails — no interval left, nothing
downloaded, or a level mismatch — the loop stops with the state
unchanged. -/
theorem claim_C6_chain_assembly :
    (∀ (l : Int) (mc : List BlockWithDownloadedHeader),
      drainLoop l mc [] = (mc, []))
    ∧ (∀ (l : Int) (mc : List BlockWithDownloadedHeader)
        (ivs : List PeerIntervalState) (itv : PeerIntervalState)
        (d : DownloadedHeader),
      ivs.getLast? = some itv → itv.downloaded.head? = some d →
      d.level = l - mc.length →
      drainLoop l mc ivs
        = drainLoop l (pushDownloaded itv.peer mc itv.downloaded)
            (if itv.current.isNone then ivs.dropLast
              else ivs.dropLast ++ [{ itv with downloaded := [] }]))
    ∧ (∀ (l : Int) (mc : List BlockWithDownloadedHeader)
        (ivs : List PeerIntervalState) (itv : PeerIntervalState),
      ivs.getLast? = some itv →
      (itv.downloaded.head? = none
        ∨ ∃ d, itv.downloaded.head? = some d ∧ d.level ≠ l - mc.length) →
      drainLoop l mc ivs = (mc, ivs)) := by
  refine ⟨?_, ?_, ?_⟩
  · intro l mc
    unfold drainLoop
    rw [List.reverse_nil, drainRev_nil]
    rfl
  · intro l mc ivs itv d hlast hd hlvl
    have hivs : ivs = ivs.dropLast ++ [itv] := by
      have h1 := congrArg List.reverse (reverse_eq_getLast_cons ivs itv hlast)
      simpa using h1
    unfold drainLoop
    rw [reverse_eq_getLast_cons ivs itv hlast,
      drainRev_cons_guard l mc itv ivs.dropLast.reverse d hd hlvl]
    by_cases hcur : itv.current.isNone
    · rw [if_pos hcur, if_pos hcur]
    · rw [if_neg hcur, if_neg hcur]
      have hrev : (ivs.dropLast ++ [({ itv with downloaded := [] } : PeerIntervalState)]).reverse
          = ({ itv with downloaded := [] } : PeerIntervalState) :: ivs.dropLast.reverse := by
        simp
      rw [hrev]
  · intro l mc ivs itv hlast hstop
    have hivs : ivs = ivs.dropLast ++ [itv] := by
      have h1 := congrArg List.reverse (reverse_eq_getLast_cons ivs itv hlast)
      simpa using h1
    unfold drainLoop
    rw [reverse_eq_getLast_cons ivs itv hlast,
      drainRev_cons_stop l mc itv ivs.dropLast.reverse hstop]
    dsimp only
    rw [List.reverse_cons, List.reverse_reverse, ← hivs]

/-- Witness for C6 at a concrete input: a single fully-downloaded tip
interval at levels 10–9 with `current = None` is drained and removed. -/
theorem claim_C6_witness :
    drainLoop 10 [] [⟨1, [⟨10, 50, 4, 0⟩, ⟨9, 49, 4, 0⟩], none⟩]
      = drainLoop 10 (pushDownloaded 1 [] [⟨10, 50, 4, 0⟩, ⟨9, 49, 4, 0⟩]) [] := by
  have h := claim_C6_chain_assembly.2.1 10 []
    [⟨1, [⟨10, 50, 4, 0⟩, ⟨9, 49, 4, 0⟩], none⟩]
    ⟨1, [⟨10, 50, 4, 0⟩, ⟨9, 49, 4, 0⟩], none⟩
    ⟨10, 50, 4, 0⟩ rfl rfl (by decide)
  simpa using h

/-- A received block header with its hash
(`BlockHeaderWithHash` plus the header fields the reducer reads). -/
structure ReceivedBlock where
  hash : Nat
  level : Int
  predecessor : Nat
  validation_pass : Nat
  operations_hash : Nat
deriving Repr, DecidableEq

/-- Modelled from the spec: `BootstrapState::peer_interval_by_level_pos`
(defined outside `src/`): the position of the given peer's interval
whose `current` expects the received header's level ("a `BlockHeader`
matching the `current` of some interval", §4.2). -/
def peer_interval_by_level_pos (intervals : List PeerIntervalState)
    (peer : Address) (level : Int) : Option Nat :=
  intervals.findIdx? (fun itv =>
    itv.peer == peer
      && match itv.current with
        | some (l, _) => l == level
        | none => false)

/-- Outcome of the `BootstrapPeerBlockHeaderReceived` arm:
`todoPanic` embeds the
`todo!("log and remove pred interval, … blacklisting a peer.")` the
source hits on a predecessor-hash mismatch with the adjacent interval. -/
inductive HeaderReceiveResult where
  | noop
  | todoPanic
  | okResult (main_chain : List BlockWithDownloadedHeader)
      (peer_intervals : List PeerIntervalState)
deriving Repr, DecidableEq

/-- The `BootstrapPeerBlockHeaderReceived` arm of `bootstrap_reducer`
(`bootstrap_reducer.rs:164-264`): advance the matching interval, check
adjacency with the next-lower interval, then run the chain-assembly
loop. -/
def bootstrapHeaderReceived (current_head_level main_chain_last_level : Int)
    (main_chain : List BlockWithDownloadedHeader)
    (peer_intervals : List PeerIntervalState) (peer : Address)
    (block : ReceivedBlock) : HeaderReceiveResult :=
  match peer_interval_by_level_pos peer_intervals peer block.level with
  | none => .noop
  | some index =>
    match peer_intervals.get? index with
    | none => .noop
    | some itv =>
      let itv1 := { itv with
        current := some (block.level - 1, block.predecessor)
        downloaded := itv.downloaded
          ++ [⟨block.level, block.hash, block.validation_pass, block.operations_hash⟩] }
      let intervals1 := peer_intervals.set index itv1
      if index ≠ 0 then
        let pred_index := index - 1
        match intervals1.get? pred_index with
        | none => .noop
        | some pred =>
          match (pred.downloaded.head?.map (fun d => (d.level, d.block_hash))).or
              pred.current with
          | some (pred_level, pred_hash) =>
            if pred_level + 1 = block.level then
              if block.predecessor ≠ pred_hash then
                .todoPanic
              else
                let intervals2 := intervals1.set index { itv1 with current := none }
                let r := drainLoop main_chain_last_level main_chain intervals2
                .okResult r.1 r.2
            else
              let r := drainLoop main_chain_last_level main_chain intervals1
              .okResult r.1 r.2
          | none =>
            let r := drainLoop main_chain_last_level main_chain
              (intervals1.eraseIdx pred_index)
            .okResult r.1 r.2
      else
        if block.level - 1 ≤ current_head_level then
          let intervals2 := intervals1.set index { itv1 with current := none }
          let r := drainLoop main_chain_last_level main_chain intervals2
          .okResult r.1 r.2
        else
          let r := drainLoop main_chain_last_level main_chain intervals1
          .okResult r.1 r.2

/-- C2: at the failing input — peer 1's header at level 50 whose
predecessor hash (60) differs from the adjacent lower interval's
expected hash (80) at level 49 — the reducer reaches the
`todo!` and panics instead of graylisting the peer, removing the
interval, and continuing. -/
theorem claim_C2_todo_panic :
    bootstrapHeaderReceived 0 100 []
        [⟨0, [], some (49, 80)⟩, ⟨1, [], some (50, 90)⟩]
        1 ⟨70, 50, 60, 4, 0⟩
      = .todoPanic := by
  decide
